import Mathlib

set_option linter.unusedSectionVars false

/-!
Shallow embedding of the `hmm` Go package (hidden Markov models with
log-domain probabilities).

Modelling conventions:
* Go `State` and `Obs` are opaque equality-comparable values; we model both
  as `ℕ`.
* Go `float64` log-probabilities are idealized as exact values: `−∞` (zero
  probability) is `⊥` of `WithBot α`.  The Viterbi decoder only ever adds
  and compares log-probabilities, so it is embedded generically over a
  `LinearOrderedAddCommMonoid α` (instantiated at `ℤ` for executable
  witnesses).  The forward–backward engine uses the transcendental
  `addLogs` primitive and is embedded at `α := ℝ`.
* Go maps (`map[State]float64`, `map[Transition]float64`,
  `map[State]*viterbiPath`) are association lists; Go map iteration is
  list-order iteration.  Go guarantees distinct keys, which appears as
  `Nodup` hypotheses on the key lists where a proof needs it.
* Channels/goroutines (one value per timestep, fork-join) are eagerly
  materialized lists; the source computation is deterministic so nothing
  is lost.
-/

namespace HmmVerify

/-- Emission capability: either the reference tabular emitter
(`TabularEmitter`, a state-keyed table of observation log-probabilities,
absent entries meaning probability zero) or an opaque emitter function
(any other implementation of the Go `Emitter` interface, determined by its
`LogProbs` behaviour). -/
inductive EmitterModel (α : Type) where
  | tabular (t : List (ℕ × List (ℕ × WithBot α)))
  | fn (f : ℕ → ℕ → WithBot α)

/-- `LogProbs` for one (observation, state) pair: the tabular emitter looks
up `t[state][obs]` and returns `−∞` when absent, exactly as
`TabularEmitter.LogProbs` does. -/
def EmitterModel.logProb {α : Type} : EmitterModel α → ℕ → ℕ → WithBot α
  | .tabular t, o, s => ((t.lookup s).bind (fun m => m.lookup o)).getD ⊥
  | .fn f, o, s => f o s

/-- The `HMM` struct: states, optional terminal state, emitter, initial
log-distribution and transition log-probabilities (absent entries are
`−∞`). -/
structure HMM (α : Type) where
  States : List ℕ
  TerminalState : Option ℕ
  Emitter : EmitterModel α
  Init : List (ℕ × WithBot α)
  Transitions : List ((ℕ × ℕ) × WithBot α)

/-- Initial log-probability of a state (`h.Init[s]`, `−∞` when absent). -/
def initLookup {α : Type} (h : HMM α) (s : ℕ) : WithBot α :=
  (h.Init.lookup s).getD ⊥

/-- Transition log-probability (`h.Transitions[{from, to}]`, `−∞` when
absent). -/
def transLookup {α : Type} (h : HMM α) (s s' : ℕ) : WithBot α :=
  (h.Transitions.lookup (s, s')).getD ⊥

/-- The `viterbiPath` struct: a candidate state sequence together with its
accumulated log-probability. -/
structure viterbiPath (α : Type) where
  Seq : List ℕ
  LogProb : WithBot α
deriving DecidableEq

/-- The Go `map[State]*viterbiPath`, as an association list. -/
abbrev Paths (α : Type) := List (ℕ × viterbiPath α)

/-- Go map store `m[s] = p`: overwrite the existing entry for `s`, or append
a fresh one. -/
def setPath {α : Type} : Paths α → ℕ → viterbiPath α → Paths α
  | [], s, p => [(s, p)]
  | (k, v) :: rest, s, p =>
    if k = s then (k, p) :: rest else (k, v) :: setPath rest s p

section Viterbi

variable {α : Type} [LinearOrderedAddCommMonoid α] [DecidableEq α]

/-- One `viterbiObservation` step: add the emission log-probability of the
observation to every live path (paths that collapse to `−∞` are kept). -/
def viterbiObservation (h : HMM α) (o : ℕ) (paths : Paths α) : Paths α :=
  paths.map (fun e => (e.1, ⟨e.2.Seq, e.2.LogProb + h.Emitter.logProb o e.1⟩))

/-- Body of the `viterbiTransition` loop for one transition record: skip
transitions whose from-state has no live path or whose extended score is
`−∞`; otherwise store the extended path at the destination, replacing an
existing entry only when the new score is strictly greater. -/
def viterbiTransStep (paths : Paths α) (res : Paths α)
    (tr : (ℕ × ℕ) × WithBot α) : Paths α :=
  match paths.lookup tr.1.1 with
  | none => res
  | some oldPath =>
    if tr.2 + oldPath.LogProb = ⊥ then res
    else
      match res.lookup tr.1.2 with
      | some existing =>
        if existing.LogProb < tr.2 + oldPath.LogProb then
          setPath res tr.1.2 ⟨oldPath.Seq ++ [tr.1.2], tr.2 + oldPath.LogProb⟩
        else res
      | none => setPath res tr.1.2 ⟨oldPath.Seq ++ [tr.1.2], tr.2 + oldPath.LogProb⟩

/-- One `viterbiTransition` step: extend every live path through every
transition, keeping for each destination the entry the Go loop keeps. -/
def viterbiTransition (h : HMM α) (paths : Paths α) : Paths α :=
  h.Transitions.foldl (viterbiTransStep paths) []

/-- Initial path map: one single-state path per state of the initial
distribution. -/
def initPaths (h : HMM α) : Paths α :=
  h.Init.map (fun e => (e.1, ⟨[e.1], e.2⟩))

/-- One step of the final selection loop of `MostLikely` in the
no-terminal-state case: the running best is replaced under a `≥`
comparison, and the `−∞` start means the first path always replaces the
empty accumulator. -/
def bestStep : Option (viterbiPath α) → ℕ × viterbiPath α →
    Option (viterbiPath α)
  | none, e => some e.2
  | some b, e => if b.LogProb ≤ e.2.LogProb then some e.2 else some b

/-- The final selection loop of `MostLikely` in the no-terminal-state case:
scan all paths, keeping the running best. -/
def bestPath (ps : Paths α) : Option (viterbiPath α) :=
  ps.foldl bestStep none

/-- The main loop of `MostLikely`: for each observation run the observation
step, then the transition step unless this is the last observation of a
model without terminal state. -/
def viterbiLoop (h : HMM α) : List ℕ → Paths α → Paths α
  | [], ps => ps
  | o :: rest, ps =>
    let ps1 := viterbiObservation h o ps
    if h.TerminalState.isSome || !rest.isEmpty then
      viterbiLoop h rest (viterbiTransition h ps1)
    else
      viterbiLoop h rest ps1

/-- `MostLikely`: run the Viterbi loop; with a terminal state return the
path ending there with the final terminal hop trimmed, otherwise return
the globally best path; `none` models the Go `nil` result. -/
def MostLikely (h : HMM α) (obs : List ℕ) : Option (List ℕ) :=
  let paths := viterbiLoop h obs (initPaths h)
  match h.TerminalState with
  | some t => (paths.lookup t).map (fun p => p.Seq.dropLast)
  | none => (bestPath paths).map viterbiPath.Seq

/-- Potential extension produced by one transition record for destination
`d`: the new path the Go loop would consider storing at `d` (skipping
transitions to other destinations, from-states without a live path, and
`−∞` extended scores). -/
def candOf (paths : Paths α) (d : ℕ) (tr : (ℕ × ℕ) × WithBot α) :
    Option (viterbiPath α) :=
  if tr.1.2 = d then
    match paths.lookup tr.1.1 with
    | none => none
    | some oldPath =>
      if tr.2 + oldPath.LogProb = ⊥ then none
      else some ⟨oldPath.Seq ++ [d], tr.2 + oldPath.LogProb⟩
  else none

/-- All incoming extensions considered for destination `d`, in the order
the transition loop examines them. -/
def viterbiCands (h : HMM α) (paths : Paths α) (d : ℕ) :
    List (viterbiPath α) :=
  h.Transitions.filterMap (candOf paths d)

/-- Selection policy of the transition loop at one destination: keep the
current entry unless the next candidate scores strictly higher. -/
def pickAcc : Option (viterbiPath α) → List (viterbiPath α) →
    Option (viterbiPath α)
  | cur, [] => cur
  | none, c :: rest => pickAcc (some c) rest
  | some b, c :: rest =>
    pickAcc (if b.LogProb < c.LogProb then some c else some b) rest

end Viterbi

section AssocLemmas

variable {κ : Type} [BEq κ] [LawfulBEq κ] [DecidableEq κ] {β γ : Type}

theorem lookup_cons (k : κ) (e : κ × β) (l : List (κ × β)) :
    (e :: l).lookup k = if k = e.1 then some e.2 else l.lookup k := by
  cases e with
  | mk a b =>
    rw [List.lookup]
    split <;> simp_all

theorem lookup_mem {l : List (κ × β)} {k : κ} {v : β}
    (h : l.lookup k = some v) : (k, v) ∈ l := by
  induction l with
  | nil => simp [List.lookup] at h
  | cons e rest ih =>
    rw [lookup_cons] at h
    by_cases hk : k = e.1
    · rw [if_pos hk] at h
      cases e
      simp_all
    · rw [if_neg hk] at h
      exact List.mem_cons_of_mem _ (ih h)

theorem lookup_eq_of_mem_nodup {l : List (κ × β)}
    (hnd : (l.map Prod.fst).Nodup) {k : κ} {v : β} (h : (k, v) ∈ l) :
    l.lookup k = some v := by
  induction l with
  | nil => simp at h
  | cons e rest ih =>
    simp only [List.map_cons, List.nodup_cons] at hnd
    rcases List.mem_cons.mp h with h | h
    · rw [← h, lookup_cons]
      simp
    · have hk : k ≠ e.1 := by
        intro hkk
        exact hnd.1 (hkk ▸ (List.mem_map.mpr ⟨(k, v), h, rfl⟩))
      rw [lookup_cons, if_neg hk]
      exact ih hnd.2 h

theorem lookup_map_value (f : κ → β → γ) (l : List (κ × β)) (k : κ) :
    (l.map (fun e => (e.1, f e.1 e.2))).lookup k = (l.lookup k).map (f k) := by
  induction l with
  | nil => simp [List.lookup]
  | cons e rest ih =>
    rw [List.map_cons, lookup_cons, lookup_cons]
    by_cases hk : k = e.1
    · subst hk
      simp
    · simp [hk, ih]

end AssocLemmas

section SetPathLemmas

variable {α : Type}

theorem lookup_setPath_self (l : Paths α) (k : ℕ) (p : viterbiPath α) :
    (setPath l k p).lookup k = some p := by
  induction l with
  | nil => simp [setPath, List.lookup]
  | cons e rest ih =>
    rw [setPath]
    by_cases hk : e.1 = k
    · rw [if_pos hk, lookup_cons, if_pos hk.symm]
    · rw [if_neg hk, lookup_cons, if_neg (Ne.symm hk)]
      exact ih

theorem lookup_setPath_ne (l : Paths α) (k k' : ℕ) (p : viterbiPath α)
    (hk : k' ≠ k) : (setPath l k p).lookup k' = l.lookup k' := by
  induction l with
  | nil =>
    show ([(k, p)] : Paths α).lookup k' = List.lookup k' []
    rw [lookup_cons, if_neg hk]
  | cons e rest ih =>
    rw [setPath]
    by_cases he : e.1 = k
    · rw [if_pos he, lookup_cons, lookup_cons]
      by_cases hke : k' = e.1
      · exact absurd (hke.trans he) hk
      · rw [if_neg hke, if_neg hke]
    · rw [if_neg he, lookup_cons, lookup_cons]
      by_cases hke : k' = e.1
      · rw [if_pos hke, if_pos hke]
      · rw [if_neg hke, if_neg hke]
        exact ih

theorem mem_setPath {l : Paths α} {k : ℕ} {p : viterbiPath α} {e : ℕ × viterbiPath α}
    (h : e ∈ setPath l k p) : e = (k, p) ∨ e ∈ l := by
  induction l with
  | nil => simpa [setPath] using h
  | cons f rest ih =>
    rw [setPath] at h
    by_cases hf : f.1 = k
    · rw [if_pos hf] at h
      rcases List.mem_cons.mp h with h | h
      · left; cases f; simp_all
      · right; exact List.mem_cons_of_mem _ h
    · rw [if_neg hf] at h
      rcases List.mem_cons.mp h with h | h
      · right; exact h ▸ List.mem_cons_self _ _
      · rcases ih h with h | h
        · exact Or.inl h
        · exact Or.inr (List.mem_cons_of_mem _ h)

end SetPathLemmas

/-- Effective stored score at a key of the path map: the stored path's
log-probability, or `−∞` when no path is stored there. -/
def scoreAt {α : Type} (ps : Paths α) (s : ℕ) : WithBot α :=
  ((ps.lookup s).map viterbiPath.LogProb).getD ⊥

section ViterbiLemmas

variable {α : Type} [LinearOrderedAddCommMonoid α] [DecidableEq α]

theorem scoreAt_lookup_some {ps : Paths α} {s : ℕ} {p : viterbiPath α}
    (h : ps.lookup s = some p) : scoreAt ps s = p.LogProb := by
  simp [scoreAt, h]

theorem scoreAt_lookup_none {ps : Paths α} {s : ℕ}
    (h : ps.lookup s = none) : scoreAt ps s = ⊥ := by
  simp [scoreAt, h]

theorem foldl_transStep_lookup (paths : Paths α) (d : ℕ) :
    ∀ (L : List ((ℕ × ℕ) × WithBot α)) (res : Paths α),
      (L.foldl (viterbiTransStep paths) res).lookup d =
        pickAcc (res.lookup d) (L.filterMap (candOf paths d)) := by
  intro L
  induction L with
  | nil =>
    intro res
    simp [pickAcc]
  | cons tr L ih =>
    intro res
    rw [List.foldl_cons, List.filterMap_cons, ih]
    rcases tr with ⟨⟨s, d'⟩, v⟩
    by_cases hd : d' = d
    · subst hd
      cases hfrom : paths.lookup s with
      | none =>
        simp only [viterbiTransStep, candOf, hfrom]
        simp
      | some oldPath =>
        by_cases hbot : v + oldPath.LogProb = ⊥
        · simp only [viterbiTransStep, candOf, hfrom, if_pos hbot]
          simp
        · cases hres : res.lookup d' with
          | none =>
            simp only [viterbiTransStep, candOf, hfrom, if_neg hbot, hres,
              if_pos rfl, lookup_setPath_self]
            simp [pickAcc]
          | some existing =>
            by_cases hlt : existing.LogProb < v + oldPath.LogProb
            · simp only [viterbiTransStep, candOf, hfrom, if_neg hbot, hres,
                if_pos rfl, if_pos hlt, lookup_setPath_self]
              simp [pickAcc, hlt]
            · simp only [viterbiTransStep, candOf, hfrom, if_neg hbot, hres,
                if_pos rfl, if_neg hlt]
              simp [pickAcc, hlt, hres]
    · have hcand : candOf paths d ((s, d'), v) = none := by
        simp [candOf, hd]
      rw [hcand]
      have hstep : (viterbiTransStep paths res ((s, d'), v)).lookup d =
          res.lookup d := by
        cases hfrom : paths.lookup s with
        | none => simp [viterbiTransStep, hfrom]
        | some oldPath =>
          by_cases hbot : v + oldPath.LogProb = ⊥
          · simp [viterbiTransStep, hfrom, hbot]
          · cases hres : res.lookup d' with
            | none =>
              simp only [viterbiTransStep, hfrom, if_neg hbot, hres]
              exact lookup_setPath_ne _ _ _ _ (fun hh => absurd hh.symm hd)
            | some existing =>
              by_cases hlt : existing.LogProb < v + oldPath.LogProb
              · simp only [viterbiTransStep, hfrom, if_neg hbot, hres, if_pos hlt]
                exact lookup_setPath_ne _ _ _ _ (fun hh => absurd hh.symm hd)
              · simp [viterbiTransStep, hfrom, hbot, hres, hlt]
      rw [hstep]

theorem viterbiTransition_lookup (h : HMM α) (paths : Paths α) (d : ℕ) :
    (viterbiTransition h paths).lookup d =
      pickAcc none (viterbiCands h paths d) := by
  rw [viterbiTransition, foldl_transStep_lookup paths d h.Transitions []]
  rfl

theorem pickAcc_ge :
    ∀ (l : List (viterbiPath α)) (cur : Option (viterbiPath α))
      (p : viterbiPath α), pickAcc cur l = some p →
      (∀ b, cur = some b → b.LogProb ≤ p.LogProb) ∧
        ∀ q ∈ l, q.LogProb ≤ p.LogProb := by
  intro l
  induction l with
  | nil =>
    intro cur p hp
    rw [pickAcc] at hp
    refine ⟨fun b hb => ?_, by simp⟩
    rw [hb] at hp
    cases hp
    exact le_refl _
  | cons c rest ih =>
    intro cur p hp
    cases cur with
    | none =>
      rw [pickAcc] at hp
      obtain ⟨h1, h2⟩ := ih (some c) p hp
      exact ⟨by simp, fun q hq => by
        rcases List.mem_cons.mp hq with hq | hq
        · exact hq ▸ h1 c rfl
        · exact h2 q hq⟩
    | some b =>
      rw [pickAcc] at hp
      by_cases hlt : b.LogProb < c.LogProb
      · rw [if_pos hlt] at hp
        obtain ⟨h1, h2⟩ := ih (some c) p hp
        refine ⟨fun b' hb' => ?_, fun q hq => ?_⟩
        · cases hb'
          exact le_of_lt (lt_of_lt_of_le hlt (h1 c rfl))
        · rcases List.mem_cons.mp hq with hq | hq
          · exact hq ▸ h1 c rfl
          · exact h2 q hq
      · rw [if_neg hlt] at hp
        obtain ⟨h1, h2⟩ := ih (some b) p hp
        refine ⟨fun b' hb' => ?_, fun q hq => ?_⟩
        · cases hb'
          exact h1 b rfl
        · rcases List.mem_cons.mp hq with hq | hq
          · exact hq ▸ le_trans (not_lt.mp hlt) (h1 b rfl)
          · exact h2 q hq

theorem pickAcc_eq_none :
    ∀ (l : List (viterbiPath α)) (cur : Option (viterbiPath α)),
      pickAcc cur l = none ↔ cur = none ∧ l = [] := by
  intro l
  induction l with
  | nil =>
    intro cur
    rw [pickAcc]
    simp
  | cons c rest ih =>
    intro cur
    cases cur with
    | none =>
      rw [pickAcc, ih]
      simp
    | some b =>
      rw [pickAcc]
      by_cases hlt : b.LogProb < c.LogProb
      · rw [if_pos hlt, ih]
        simp
      · rw [if_neg hlt, ih]
        simp

theorem pickAcc_first_max :
    ∀ (l : List (viterbiPath α)) (cur : Option (viterbiPath α))
      (p : viterbiPath α), pickAcc cur l = some p →
      (cur = some p ∧ ∀ q ∈ l, q.LogProb ≤ p.LogProb) ∨
      ∃ pre post, l = pre ++ p :: post ∧
        (∀ b, cur = some b → b.LogProb < p.LogProb) ∧
        (∀ q ∈ pre, q.LogProb < p.LogProb) ∧
        (∀ q ∈ post, q.LogProb ≤ p.LogProb) := by
  intro l
  induction l with
  | nil =>
    intro cur p hp
    rw [pickAcc] at hp
    exact Or.inl ⟨hp, by simp⟩
  | cons c rest ih =>
    intro cur p hp
    cases cur with
    | none =>
      rw [pickAcc] at hp
      rcases ih (some c) p hp with ⟨hc, hrest⟩ | ⟨pre, post, hsplit, hcur, hpre, hpost⟩
      · cases hc
        exact Or.inr ⟨[], rest, by simp, by simp, by simp, hrest⟩
      · exact Or.inr ⟨c :: pre, post, by simp [hsplit], by simp,
          fun q hq => by
            rcases List.mem_cons.mp hq with hq | hq
            · exact hq ▸ hcur c rfl
            · exact hpre q hq, hpost⟩
    | some b =>
      rw [pickAcc] at hp
      by_cases hlt : b.LogProb < c.LogProb
      · rw [if_pos hlt] at hp
        rcases ih (some c) p hp with ⟨hc, hrest⟩ | ⟨pre, post, hsplit, hcur, hpre, hpost⟩
        · cases hc
          exact Or.inr ⟨[], rest, by simp, fun b' hb' => by cases hb'; exact hlt,
            by simp, hrest⟩
        · exact Or.inr ⟨c :: pre, post, by simp [hsplit],
            fun b' hb' => by cases hb'; exact lt_trans hlt (hcur c rfl),
            fun q hq => by
              rcases List.mem_cons.mp hq with hq | hq
              · exact hq ▸ hcur c rfl
              · exact hpre q hq, hpost⟩
      · rw [if_neg hlt] at hp
        rcases ih (some b) p hp with ⟨hc, hrest⟩ | ⟨pre, post, hsplit, hcur, hpre, hpost⟩
        · cases hc
          exact Or.inl ⟨rfl, fun q hq => by
            rcases List.mem_cons.mp hq with hq | hq
            · exact hq ▸ not_lt.mp hlt
            · exact hrest q hq⟩
        · exact Or.inr ⟨c :: pre, post, by simp [hsplit],
            fun b' hb' => by cases hb'; exact hcur b rfl,
            fun q hq => by
              rcases List.mem_cons.mp hq with hq | hq
              · rw [hq]; exact lt_of_le_of_lt (not_lt.mp hlt) (hcur b rfl)
              · exact hpre q hq, hpost⟩

theorem lookup_viterbiObservation (h : HMM α) (o : ℕ) (ps : Paths α) (s : ℕ) :
    (viterbiObservation h o ps).lookup s =
      (ps.lookup s).map (fun p => ⟨p.Seq, p.LogProb + h.Emitter.logProb o s⟩) := by
  rw [viterbiObservation]
  exact lookup_map_value
    (fun k p => (⟨p.Seq, p.LogProb + h.Emitter.logProb o k⟩ : viterbiPath α)) ps s

theorem scoreAt_viterbiObservation (h : HMM α) (o : ℕ) (ps : Paths α) (s : ℕ) :
    scoreAt (viterbiObservation h o ps) s =
      scoreAt ps s + h.Emitter.logProb o s := by
  rw [scoreAt, lookup_viterbiObservation]
  cases hl : ps.lookup s with
  | none => simp [scoreAt, hl]
  | some p => simp [scoreAt, hl]

theorem scoreAt_viterbiTransition_ge (h : HMM α) (paths : Paths α) (s d : ℕ) :
    scoreAt paths s + transLookup h s d ≤
      scoreAt (viterbiTransition h paths) d := by
  cases hl : paths.lookup s with
  | none =>
    rw [scoreAt_lookup_none hl, WithBot.bot_add]
    exact bot_le
  | some old =>
    rw [scoreAt_lookup_some hl]
    cases ht : h.Transitions.lookup (s, d) with
    | none =>
      rw [transLookup, ht, Option.getD_none, WithBot.add_bot]
      exact bot_le
    | some v =>
      rw [transLookup, ht, Option.getD_some]
      by_cases hbot : v + old.LogProb = ⊥
      · rw [add_comm, hbot]
        exact bot_le
      · have hcand : (⟨old.Seq ++ [d], v + old.LogProb⟩ : viterbiPath α) ∈
            viterbiCands h paths d :=
          List.mem_filterMap.mpr ⟨((s, d), v), lookup_mem ht, by
            simp [candOf, hl, hbot]⟩
        have hne : (viterbiTransition h paths).lookup d ≠ none := by
          rw [viterbiTransition_lookup]
          intro hn
          rcases (pickAcc_eq_none _ _).mp hn with ⟨-, hnil⟩
          rw [hnil] at hcand
          simp at hcand
        rcases Option.ne_none_iff_exists'.mp hne with ⟨p, hp⟩
        rw [scoreAt_lookup_some hp]
        have hple : ∀ q ∈ viterbiCands h paths d, q.LogProb ≤ p.LogProb := by
          refine (pickAcc_ge _ none p ?_).2
          rw [← viterbiTransition_lookup h paths d]
          exact hp
        calc old.LogProb + v = v + old.LogProb := add_comm _ _
          _ ≤ p.LogProb := hple _ hcand

theorem mem_foldl_transStep (paths : Paths α) :
    ∀ (L : List ((ℕ × ℕ) × WithBot α)) (res : Paths α) (e : ℕ × viterbiPath α),
      e ∈ L.foldl (viterbiTransStep paths) res →
      e ∈ res ∨ ∃ s v oldPath, ((s, e.1), v) ∈ L ∧
        paths.lookup s = some oldPath ∧
        e.2.Seq = oldPath.Seq ++ [e.1] ∧ e.2.LogProb = v + oldPath.LogProb := by
  intro L
  induction L with
  | nil =>
    intro res e he
    exact Or.inl he
  | cons tr L ih =>
    intro res e he
    rw [List.foldl_cons] at he
    rcases ih (viterbiTransStep paths res tr) e he with
      hin | ⟨s, v, old, hmem, hl, hseq, hlp⟩
    · rcases tr with ⟨⟨s, d'⟩, v⟩
      cases hl : paths.lookup s with
      | none =>
        simp only [viterbiTransStep, hl] at hin
        exact Or.inl hin
      | some old =>
        by_cases hbot : v + old.LogProb = ⊥
        · simp only [viterbiTransStep, hl, if_pos hbot] at hin
          exact Or.inl hin
        · cases hres : res.lookup d' with
          | none =>
            simp only [viterbiTransStep, hl, if_neg hbot, hres] at hin
            rcases mem_setPath hin with heq | hin
            · subst heq
              exact Or.inr ⟨s, v, old, List.mem_cons_self _ _, hl, rfl, rfl⟩
            · exact Or.inl hin
          | some existing =>
            by_cases hlt : existing.LogProb < v + old.LogProb
            · simp only [viterbiTransStep, hl, if_neg hbot, hres, if_pos hlt] at hin
              rcases mem_setPath hin with heq | hin
              · subst heq
                exact Or.inr ⟨s, v, old, List.mem_cons_self _ _, hl, rfl, rfl⟩
              · exact Or.inl hin
            · simp only [viterbiTransStep, hl, if_neg hbot, hres, if_neg hlt] at hin
              exact Or.inl hin
    · exact Or.inr ⟨s, v, old, List.mem_cons_of_mem _ hmem, hl, hseq, hlp⟩

theorem mem_viterbiTransition {h : HMM α} {paths : Paths α}
    {e : ℕ × viterbiPath α} (he : e ∈ viterbiTransition h paths) :
    ∃ s v oldPath, ((s, e.1), v) ∈ h.Transitions ∧
      paths.lookup s = some oldPath ∧
      e.2.Seq = oldPath.Seq ++ [e.1] ∧ e.2.LogProb = v + oldPath.LogProb := by
  rcases mem_foldl_transStep paths h.Transitions [] e he with hin | hgood
  · simp at hin
  · exact hgood

end ViterbiLemmas

/-- Score contribution of extending a path that currently ends in state `s`
through remaining observations `os` via the successor states `cr` (one per
observation): the end state emits the next observation, then hops to the
next state.  Length mismatches score `−∞`. -/
def extScore {α : Type} (h : HMM α) [LinearOrderedAddCommMonoid α] :
    ℕ → List ℕ → List ℕ → WithBot α
  | _, [], [] => 0
  | s, o :: os, s' :: cr =>
    h.Emitter.logProb o s + transLookup h s s' + extScore h s' os cr
  | _, _, _ => ⊥

/-- Like `extScore` but for a model without terminal state: the final
observation is emitted by the current end state with no further hop. -/
def extScoreN {α : Type} (h : HMM α) [LinearOrderedAddCommMonoid α] :
    ℕ → List ℕ → List ℕ → WithBot α
  | s, os, s' :: cr =>
    match os with
    | o :: os' => h.Emitter.logProb o s + transLookup h s s' + extScoreN h s' os' cr
    | [] => ⊥
  | s, os, [] =>
    match os with
    | [] => 0
    | [o] => h.Emitter.logProb o s
    | _ => ⊥

/-- Recomputed log-probability of a complete candidate state path for the
observation sequence, exactly as the claim states it: initial
log-probability of the first state, plus transition log-probabilities
along the path, plus the emission log-probability of each observation,
plus, with a terminal state configured, the trimmed final hop into the
terminal state. -/
def pathScore {α : Type} [LinearOrderedAddCommMonoid α]
    (h : HMM α) (obs : List ℕ) (q : List ℕ) : WithBot α :=
  match h.TerminalState with
  | some t =>
    match q with
    | [] => initLookup h t
    | s :: cr => initLookup h s + extScore h s obs (cr ++ [t])
  | none =>
    match q with
    | [] => ⊥
    | s :: cr => initLookup h s + extScoreN h s obs cr

/-- One full Viterbi iteration (observation step then transition step), as
performed for every observation except the last one of a
no-terminal-state model. -/
def stepFull {α : Type} [LinearOrderedAddCommMonoid α] [DecidableEq α]
    (h : HMM α) (ps : Paths α) (o : ℕ) : Paths α :=
  viterbiTransition h (viterbiObservation h o ps)

section ViterbiLoopLemmas

variable {α : Type} [LinearOrderedAddCommMonoid α] [DecidableEq α]

theorem scoreAt_foldl_stepFull_ge (h : HMM α) :
    ∀ (os : List ℕ) (P : Paths α) (s : ℕ) (cr : List ℕ),
      cr.length = os.length →
      scoreAt P s + extScore h s os cr ≤
        scoreAt (os.foldl (stepFull h) P) (cr.getLastD s) := by
  intro os
  induction os with
  | nil =>
    intro P s cr hlen
    rw [List.length_nil, List.length_eq_zero] at hlen
    subst hlen
    simp [extScore]
  | cons o os ih =>
    intro P s cr hlen
    cases cr with
    | nil => simp at hlen
    | cons s' cr =>
      rw [List.foldl_cons, List.getLastD_cons]
      have hext : extScore h s (o :: os) (s' :: cr) =
          h.Emitter.logProb o s + transLookup h s s' + extScore h s' os cr := rfl
      have h1 : scoreAt P s + extScore h s (o :: os) (s' :: cr) =
          scoreAt (viterbiObservation h o P) s + transLookup h s s' +
            extScore h s' os cr := by
        rw [hext, scoreAt_viterbiObservation]
        abel
      have h2 : scoreAt (viterbiObservation h o P) s + transLookup h s s' ≤
          scoreAt (stepFull h P o) s' :=
        scoreAt_viterbiTransition_ge h (viterbiObservation h o P) s s'
      have h3 := add_le_add_right h2 (extScore h s' os cr)
      have h4 := ih (stepFull h P o) s' cr (by simpa using hlen)
      rw [h1]
      exact le_trans h3 h4

theorem mem_foldl_stepFull (h : HMM α)
    (hTrans : (h.Transitions.map Prod.fst).Nodup) :
    ∀ (os : List ℕ) (P : Paths α) (e : ℕ × viterbiPath α),
      e ∈ os.foldl (stepFull h) P →
      ∃ e0 ∈ P, ∃ cr : List ℕ, cr.length = os.length ∧
        e.2.Seq = e0.2.Seq ++ cr ∧ e.1 = cr.getLastD e0.1 ∧
        e.2.LogProb = e0.2.LogProb + extScore h e0.1 os cr := by
  intro os
  induction os with
  | nil =>
    intro P e he
    exact ⟨e, he, [], rfl, by simp, rfl, by simp [extScore]⟩
  | cons o os ih =>
    intro P e he
    rw [List.foldl_cons] at he
    rcases ih (stepFull h P o) e he with ⟨e1, he1, cr, hlen, hseq, hend, hlp⟩
    rcases mem_viterbiTransition he1 with ⟨s, v, old', hmemT, hl', hseq1, hlp1⟩
    rw [lookup_viterbiObservation] at hl'
    cases hl0 : P.lookup s with
    | none =>
      rw [hl0] at hl'
      simp at hl'
    | some old =>
      rw [hl0, Option.map_some'] at hl'
      have hold' : old' = ⟨old.Seq, old.LogProb + h.Emitter.logProb o s⟩ :=
        (Option.some.inj hl').symm
      have hv : transLookup h s e1.1 = v := by
        rw [transLookup, lookup_eq_of_mem_nodup hTrans hmemT, Option.getD_some]
      refine ⟨(s, old), lookup_mem hl0, e1.1 :: cr, by simp [hlen], ?_, ?_, ?_⟩
      · rw [hseq, hseq1, hold']
        simp
      · rw [List.getLastD_cons, ← hend]
      · have hstep : extScore h s (o :: os) (e1.1 :: cr) =
            h.Emitter.logProb o s + transLookup h s e1.1 +
              extScore h e1.1 os cr := rfl
        rw [hlp, hlp1, hold', hstep, hv]
        show (v + (old.LogProb + h.Emitter.logProb o s)) + extScore h e1.1 os cr =
          old.LogProb + (h.Emitter.logProb o s + v + extScore h e1.1 os cr)
        abel

theorem viterbiLoop_terminal (h : HMM α) (ht : h.TerminalState.isSome) :
    ∀ (os : List ℕ) (ps : Paths α),
      viterbiLoop h os ps = os.foldl (stepFull h) ps := by
  intro os
  induction os with
  | nil =>
    intro ps
    rfl
  | cons o rest ih =>
    intro ps
    rw [viterbiLoop, List.foldl_cons]
    simp only [ht, Bool.true_or, if_pos rfl]
    exact ih (viterbiTransition h (viterbiObservation h o ps))

theorem viterbiLoop_nonterminal (h : HMM α) (ht : h.TerminalState = none) :
    ∀ (os : List ℕ) (o : ℕ) (ps : Paths α),
      viterbiLoop h (os ++ [o]) ps =
        viterbiObservation h o (os.foldl (stepFull h) ps) := by
  intro os
  induction os with
  | nil =>
    intro o ps
    rw [List.nil_append, viterbiLoop]
    simp [ht, viterbiLoop]
  | cons o' os ih =>
    intro o ps
    rw [List.cons_append, viterbiLoop, List.foldl_cons]
    have hne : ((os ++ [o]).isEmpty : Bool) = false := by
      simp
    simp only [ht, Option.isSome_none, hne, Bool.not_false, Bool.or_true,
      if_pos rfl]
    exact ih o (viterbiTransition h (viterbiObservation h o' ps))

theorem lookup_initPaths (h : HMM α) (s : ℕ) :
    (initPaths h).lookup s = (h.Init.lookup s).map (fun lp => ⟨[s], lp⟩) := by
  rw [initPaths]
  exact lookup_map_value (fun k lp => (⟨[k], lp⟩ : viterbiPath α)) h.Init s

theorem scoreAt_initPaths (h : HMM α) (s : ℕ) :
    scoreAt (initPaths h) s = initLookup h s := by
  rw [scoreAt, lookup_initPaths, initLookup]
  cases h.Init.lookup s <;> simp

theorem mem_initPaths {h : HMM α} {e : ℕ × viterbiPath α}
    (he : e ∈ initPaths h) :
    (e.1, e.2.LogProb) ∈ h.Init ∧ e.2.Seq = [e.1] := by
  rcases List.mem_map.mp he with ⟨a, ha, rfl⟩
  exact ⟨ha, rfl⟩

theorem bestPath_foldl_spec :
    ∀ (ps : Paths α) (acc : Option (viterbiPath α)) (p : viterbiPath α),
      ps.foldl bestStep acc = some p →
      (acc = some p ∨ ∃ k, (k, p) ∈ ps) ∧
      (∀ b, acc = some b → b.LogProb ≤ p.LogProb) ∧
      (∀ e ∈ ps, e.2.LogProb ≤ p.LogProb) := by
  intro ps
  induction ps with
  | nil =>
    intro acc p hp
    exact ⟨Or.inl hp, fun b hb => by rw [hb] at hp; cases hp; exact le_refl _,
      by simp⟩
  | cons e rest ih =>
    intro acc p hp
    rw [List.foldl_cons] at hp
    obtain ⟨hmem, hacc, hrest⟩ := ih (bestStep acc e) p hp
    have hstep_le : ∀ c, bestStep acc e = some c → c.LogProb ≤ p.LogProb :=
      fun c hc => hacc c hc
    refine ⟨?_, ?_, ?_⟩
    · rcases hmem with hs | ⟨k, hk⟩
      · cases acc with
        | none =>
          cases hs
          exact Or.inr ⟨e.1, by simp⟩
        | some b =>
          rw [bestStep] at hs
          by_cases hle : b.LogProb ≤ e.2.LogProb
          · rw [if_pos hle] at hs
            cases hs
            exact Or.inr ⟨e.1, by simp⟩
          · rw [if_neg hle] at hs
            exact Or.inl hs
      · exact Or.inr ⟨k, List.mem_cons_of_mem _ hk⟩
    · intro b hb
      subst hb
      rw [bestStep] at hstep_le
      by_cases hle : b.LogProb ≤ e.2.LogProb
      · rw [if_pos hle] at hstep_le
        exact le_trans hle (hstep_le _ rfl)
      · rw [if_neg hle] at hstep_le
        exact hstep_le _ rfl
    · intro f hf
      rcases List.mem_cons.mp hf with hf | hf
      · subst hf
        cases acc with
        | none => exact hstep_le f.2 rfl
        | some b =>
          rw [bestStep] at hstep_le
          by_cases hle : b.LogProb ≤ f.2.LogProb
          · rw [if_pos hle] at hstep_le
            exact hstep_le _ rfl
          · rw [if_neg hle] at hstep_le
            exact le_trans (le_of_lt (not_le.mp hle)) (hstep_le _ rfl)
      · exact hrest f hf

theorem bestPath_mem {ps : Paths α} {p : viterbiPath α}
    (hp : bestPath ps = some p) : ∃ k, (k, p) ∈ ps := by
  rcases (bestPath_foldl_spec ps none p hp).1 with hs | hm
  · cases hs
  · exact hm

theorem bestPath_ge {ps : Paths α} {p : viterbiPath α}
    (hp : bestPath ps = some p) : ∀ e ∈ ps, e.2.LogProb ≤ p.LogProb :=
  (bestPath_foldl_spec ps none p hp).2.2

theorem scoreAt_le_bestPath {ps : Paths α} {p : viterbiPath α}
    (hp : bestPath ps = some p) (d : ℕ) : scoreAt ps d ≤ p.LogProb := by
  cases hl : ps.lookup d with
  | none =>
    rw [scoreAt_lookup_none hl]
    exact bot_le
  | some e =>
    rw [scoreAt_lookup_some hl]
    exact bestPath_ge hp (d, e) (lookup_mem hl)

theorem extScore_nil (h : HMM α) (s : ℕ) : extScore h s [] [] = 0 := rfl

theorem extScore_cons (h : HMM α) (s o s' : ℕ) (os cr : List ℕ) :
    extScore h s (o :: os) (s' :: cr) =
      h.Emitter.logProb o s + transLookup h s s' + extScore h s' os cr := rfl

theorem extScoreN_nil (h : HMM α) (s : ℕ) : extScoreN h s [] [] = 0 := rfl

theorem extScoreN_single (h : HMM α) (s o : ℕ) :
    extScoreN h s [o] [] = h.Emitter.logProb o s := rfl

theorem extScoreN_cons (h : HMM α) (s o s' : ℕ) (os cr : List ℕ) :
    extScoreN h s (o :: os) (s' :: cr) =
      h.Emitter.logProb o s + transLookup h s s' + extScoreN h s' os cr := rfl

theorem extScoreN_append (h : HMM α) :
    ∀ (os cr : List ℕ) (s o : ℕ), cr.length = os.length →
      extScoreN h s (os ++ [o]) cr =
        extScore h s os cr + h.Emitter.logProb o (cr.getLastD s) := by
  intro os
  induction os with
  | nil =>
    intro cr s o hlen
    rw [List.length_nil, List.length_eq_zero] at hlen
    subst hlen
    rw [List.nil_append, extScoreN_single]
    show h.Emitter.logProb o s = extScore h s [] [] + h.Emitter.logProb o s
    rw [show extScore h s [] [] = 0 from rfl, zero_add]
  | cons o' os ih =>
    intro cr s o hlen
    cases cr with
    | nil => simp at hlen
    | cons s' cr =>
      rw [List.cons_append, extScoreN_cons, List.getLastD_cons,
        ih cr s' o (by simpa using hlen), extScore_cons]
      abel

end ViterbiLoopLemmas

/-- C1: for every HMM and observation sequence, any state path returned by
`MostLikely` has recomputed log-probability (initial log-probability of its
first state, plus transition log-probabilities along the path, plus the
emission log-probability of each observation, plus, when a terminal state
is configured, the trimmed final hop into the terminal state) at least as
large as the same score of every other feasible state path (paths of the
length `MostLikely` searches over: one state per observation, or a single
state when there are no observations and no terminal state).  The `Nodup`
hypotheses state that the Go maps `Init` and `Transitions` have distinct
keys. -/
theorem mostLikely_optimal {α : Type} [LinearOrderedAddCommMonoid α]
    [DecidableEq α] (h : HMM α) (obs : List ℕ)
    (hInit : (h.Init.map Prod.fst).Nodup)
    (hTrans : (h.Transitions.map Prod.fst).Nodup)
    (seq : List ℕ) (hres : MostLikely h obs = some seq)
    (q : List ℕ)
    (hq : q.length =
      if h.TerminalState.isSome then obs.length else max 1 obs.length) :
    pathScore h obs q ≤ pathScore h obs seq := by
  cases hterm : h.TerminalState with
  | some t =>
    simp only [MostLikely, hterm] at hres
    rw [hterm] at hq
    have hq' : q.length = obs.length := by simpa using hq
    have hloop : viterbiLoop h obs (initPaths h) =
        obs.foldl (stepFull h) (initPaths h) :=
      viterbiLoop_terminal h (by rw [hterm]; rfl) obs (initPaths h)
    rw [hloop] at hres
    rcases Option.map_eq_some'.mp hres with ⟨p, hp, hseq⟩
    rcases mem_foldl_stepFull h hTrans obs (initPaths h) (t, p) (lookup_mem hp)
      with ⟨e0, he0, cr, hlen, hpseq, hend, hplp⟩
    obtain ⟨hinit0, hseq0⟩ := mem_initPaths he0
    have hinitval : initLookup h e0.1 = e0.2.LogProb := by
      rw [initLookup, lookup_eq_of_mem_nodup hInit hinit0, Option.getD_some]
    have hscore_seq : pathScore h obs seq = p.LogProb := by
      rcases List.eq_nil_or_concat cr with hcr | ⟨cr', a, hcr⟩
      · subst hcr
        have hobs : obs = [] := by
          rw [List.length_nil] at hlen
          exact List.length_eq_zero.mp hlen.symm
        subst hobs
        have ht0 : t = e0.1 := by simpa using hend
        have hps : p.Seq = [e0.1] := by
          rw [hpseq, hseq0]
          simp
        have hseq' : seq = [] := by
          rw [← hseq, hps]
          simp
        rw [hseq']
        simp only [pathScore, hterm]
        rw [hplp, extScore_nil, add_zero, ← hinitval, ht0]
      · rw [List.concat_eq_append] at hcr
        subst hcr
        have ha : a = t := by simpa using hend.symm
        subst ha
        have hps : p.Seq = (e0.1 :: cr') ++ [a] := by
          rw [hpseq, hseq0]
          simp
        have hseq' : seq = e0.1 :: cr' := by
          rw [← hseq, hps, List.dropLast_concat]
        rw [hseq']
        simp only [pathScore, hterm]
        rw [hplp, hinitval]
    have hdom : pathScore h obs q ≤ p.LogProb := by
      cases q with
      | nil =>
        have hobs : obs = [] := by
          rw [List.length_nil] at hq'
          exact List.length_eq_zero.mp hq'.symm
        subst hobs
        simp only [pathScore, hterm]
        have h1 : scoreAt (initPaths h) t = p.LogProb := scoreAt_lookup_some hp
        rw [scoreAt_initPaths] at h1
        exact le_of_eq h1
      | cons q0 qr =>
        simp only [pathScore, hterm]
        have hlenq : (qr ++ [t]).length = obs.length := by
          rw [List.length_append]
          simpa using hq'
        have hge := scoreAt_foldl_stepFull_ge h obs (initPaths h) q0
          (qr ++ [t]) hlenq
        rw [scoreAt_initPaths] at hge
        have hlast : (qr ++ [t]).getLastD q0 = t := by simp
        rw [hlast, scoreAt_lookup_some hp] at hge
        exact hge
    rw [hscore_seq]
    exact hdom
  | none =>
    simp only [MostLikely, hterm] at hres
    rw [hterm] at hq
    have hq' : q.length = max 1 obs.length := by simpa using hq
    rcases Option.map_eq_some'.mp hres with ⟨p, hp, hseq⟩
    rcases List.eq_nil_or_concat obs with hobs | ⟨os, oL, hobs⟩
    · subst hobs
      have hq1 : q.length = 1 := by simpa using hq'
      rcases List.length_eq_one.mp hq1 with ⟨q0, rfl⟩
      rcases bestPath_mem hp with ⟨k, hk⟩
      obtain ⟨hinitk, hseqk⟩ := mem_initPaths hk
      have hvk : initLookup h k = p.LogProb := by
        rw [initLookup, lookup_eq_of_mem_nodup hInit hinitk, Option.getD_some]
      have hseq' : seq = [k] := by rw [← hseq, hseqk]
      rw [hseq']
      simp only [pathScore, hterm]
      rw [extScoreN_nil, extScoreN_nil, add_zero, add_zero, hvk]
      have h1 : scoreAt (initPaths h) q0 ≤ p.LogProb := scoreAt_le_bestPath hp q0
      rw [scoreAt_initPaths] at h1
      exact h1
    · rw [List.concat_eq_append] at hobs
      subst hobs
      rw [viterbiLoop_nonterminal h hterm os oL (initPaths h)] at hp
      rcases bestPath_mem hp with ⟨k, hk⟩
      rcases List.mem_map.mp hk with ⟨e1, he1, heq⟩
      have hp2 : p = ⟨e1.2.Seq, e1.2.LogProb + h.Emitter.logProb oL e1.1⟩ :=
        (congrArg Prod.snd heq).symm
      rcases mem_foldl_stepFull h hTrans os (initPaths h) e1 he1 with
        ⟨e0, he0, cr, hlen, hseq1, hend, hlp1⟩
      obtain ⟨hinit0, hseq0⟩ := mem_initPaths he0
      have hinitval : initLookup h e0.1 = e0.2.LogProb := by
        rw [initLookup, lookup_eq_of_mem_nodup hInit hinit0, Option.getD_some]
      have hscore_seq : pathScore h (os ++ [oL]) seq = p.LogProb := by
        have hseq'' : seq = e0.1 :: cr := by
          rw [← hseq, hp2]
          show e1.2.Seq = e0.1 :: cr
          rw [hseq1, hseq0]
          simp
        rw [hseq'']
        simp only [pathScore, hterm]
        rw [extScoreN_append h os cr e0.1 oL hlen, hp2]
        show initLookup h e0.1 +
            (extScore h e0.1 os cr + h.Emitter.logProb oL (cr.getLastD e0.1)) =
          e1.2.LogProb + h.Emitter.logProb oL e1.1
        rw [← hend, hlp1, hinitval, add_assoc]
      rw [hscore_seq]
      cases q with
      | nil =>
        exfalso
        rw [List.length_nil, List.length_append] at hq'
        simp at hq'
      | cons q0 qr =>
        have hlenq : qr.length = os.length := by
          rw [List.length_cons, List.length_append] at hq'
          simp at hq'
          omega
        simp only [pathScore, hterm]
        rw [extScoreN_append h os qr q0 oL hlenq]
        have hge := scoreAt_foldl_stepFull_ge h os (initPaths h) q0 qr hlenq
        rw [scoreAt_initPaths] at hge
        calc initLookup h q0 +
              (extScore h q0 os qr + h.Emitter.logProb oL (qr.getLastD q0))
            = (initLookup h q0 + extScore h q0 os qr) +
                h.Emitter.logProb oL (qr.getLastD q0) := (add_assoc _ _ _).symm
          _ ≤ scoreAt (os.foldl (stepFull h) (initPaths h)) (qr.getLastD q0) +
                h.Emitter.logProb oL (qr.getLastD q0) := add_le_add_right hge _
          _ = scoreAt (viterbiObservation h oL
                (os.foldl (stepFull h) (initPaths h))) (qr.getLastD q0) :=
              (scoreAt_viterbiObservation h oL _ _).symm
          _ ≤ p.LogProb := scoreAt_le_bestPath hp _

/-- Concrete two-state model (no terminal state, uniform emissions) used to
witness the Viterbi optimality theorem on an explicit input. -/
def c1HMM : HMM ℤ :=
  ⟨[0, 1], none, .fn (fun _ _ => 0),
    [(0, (0 : WithBot ℤ)), (1, ⊥)],
    [((0, 0), (0 : WithBot ℤ)), ((0, 1), (0 : WithBot ℤ))]⟩

/-- Witness for the Viterbi optimality theorem at a concrete input: the
decoder returns `[0, 1]` on the two-observation sequence `[5, 5]`, and its
score dominates the feasible path `[1, 1]`. -/
theorem mostLikely_optimal_witness :
    (List.map Prod.fst c1HMM.Init).Nodup ∧
    (List.map Prod.fst c1HMM.Transitions).Nodup ∧
    MostLikely c1HMM [5, 5] = some [0, 1] ∧
    ([1, 1] : List ℕ).length =
      (if c1HMM.TerminalState.isSome then ([5, 5] : List ℕ).length
        else max 1 ([5, 5] : List ℕ).length) ∧
    pathScore c1HMM [5, 5] [1, 1] ≤ pathScore c1HMM [5, 5] [0, 1] :=
  ⟨by decide, by decide, by decide, by decide,
    mostLikely_optimal c1HMM [5, 5] (by decide) (by decide) [0, 1] (by decide)
      [1, 1] (by decide)⟩

/-- Concrete model for the tie-break counterexample: two transitions into
state 2, examined in list order, both extending score-0 paths. -/
def c5HMM : HMM ℤ :=
  ⟨[0, 1, 2], none, .fn (fun _ _ => 0), [],
    [((0, 2), (0 : WithBot ℤ)), ((1, 2), (0 : WithBot ℤ))]⟩

/-- Live paths for the tie-break counterexample: equal-score paths ending
in states 0 and 1. -/
def c5Paths : Paths ℤ :=
  [(0, ⟨[0], (0 : WithBot ℤ)⟩), (1, ⟨[1], (0 : WithBot ℤ)⟩)]

/-- C5 (counterexample): in `viterbiTransition`, when two incoming
extensions reach the same destination with exactly equal scores, the
transition examined EARLIER wins, not the later one as the claim states:
here both candidate extensions `[0, 2]` and `[1, 2]` reach state 2 with
score 0, the later-examined one is `[1, 2]`, and the loop keeps `[0, 2]`
(the Go code replaces only on a strict `<` comparison). -/
theorem viterbiTransition_tie_counterexample :
    viterbiCands c5HMM c5Paths 2 =
      [⟨[0, 2], (0 : WithBot ℤ)⟩, ⟨[1, 2], (0 : WithBot ℤ)⟩] ∧
    (⟨[0, 2], (0 : WithBot ℤ)⟩ : viterbiPath ℤ) ≠ ⟨[1, 2], (0 : WithBot ℤ)⟩ ∧
    (viterbiTransition c5HMM c5Paths).lookup 2 =
      some ⟨[0, 2], (0 : WithBot ℤ)⟩ := by
  refine ⟨?_, ?_, ?_⟩ <;> decide

/-- C5 (amended): in the Viterbi transition step each destination keeps
only a single best-scoring incoming extension, and under exact score ties
the extension from the transition examined EARLIER wins (the Go loop
replaces an existing entry only under a strict `<` comparison): the kept
entry is a candidate no strictly-earlier candidate matches in score and no
later candidate beats. -/
theorem viterbiTransition_keeps_first_best {α : Type}
    [LinearOrderedAddCommMonoid α] [DecidableEq α]
    (h : HMM α) (paths : Paths α) (d : ℕ) (p : viterbiPath α)
    (hp : (viterbiTransition h paths).lookup d = some p) :
    ∃ pre post, viterbiCands h paths d = pre ++ p :: post ∧
      (∀ q ∈ pre, q.LogProb < p.LogProb) ∧
      (∀ q ∈ post, q.LogProb ≤ p.LogProb) := by
  rw [viterbiTransition_lookup] at hp
  rcases pickAcc_first_max _ none p hp with ⟨hc, -⟩ |
    ⟨pre, post, hsplit, -, hpre, hpost⟩
  · cases hc
  · exact ⟨pre, post, hsplit, hpre, hpost⟩

/-- Witness for the amended C5 theorem at a concrete input: in the
counterexample model the kept entry at destination 2 is the first
candidate, with the later equal-scoring candidate behind it. -/
theorem viterbiTransition_keeps_first_best_witness :
    (viterbiTransition c5HMM c5Paths).lookup 2 =
        some ⟨[0, 2], (0 : WithBot ℤ)⟩ ∧
      ∃ pre post,
        viterbiCands c5HMM c5Paths 2 =
          pre ++ (⟨[0, 2], (0 : WithBot ℤ)⟩ : viterbiPath ℤ) :: post ∧
        (∀ q ∈ pre, q.LogProb < ((0 : ℤ) : WithBot ℤ)) ∧
        (∀ q ∈ post, q.LogProb ≤ ((0 : ℤ) : WithBot ℤ)) :=
  ⟨by decide,
    viterbiTransition_keeps_first_best c5HMM c5Paths 2 _ (by decide)⟩

/-! The forward-backward engine of `fwd_bwd.go` and the performance layer
of `optimizations.go`, embedded at exact-real log-probabilities
(`WithBot ℝ`, with `⊥` for `−∞`).  The Go channels are materialized as the
lists of emitted distributions, in emission order. -/

/-- Log-domain value of the engine: an exact real or `−∞`. -/
abbrev Vr : Type := WithBot ℝ

/-- `math.Exp` on log-domain values: `exp(−∞) = 0`. -/
noncomputable def expW : Vr → ℝ
  | ⊥ => 0
  | (x : ℝ) => Real.exp x

/-- Subtraction of a finite real from a log-domain value, as used inside
`addLogs` (where the subtrahend is the finite maximum): `−∞ − m = −∞`. -/
def subW : Vr → ℝ → Vr
  | ⊥, _ => ⊥
  | (x : ℝ), m => ((x - m : ℝ) : Vr)

/-- `addLogs`: log-domain addition by the max-shift rule of `util.go`: if
`max(x1, x2)` is `−∞` return it, else return
`log(exp(x1−max) + exp(x2−max)) + max`. -/
noncomputable def addLogs (x1 x2 : Vr) : Vr :=
  match max x1 x2 with
  | ⊥ => ⊥
  | (m : ℝ) =>
    ((Real.log (expW (subW x1 m) + expW (subW x2 m)) + m : ℝ) : Vr)

/-- Negation of a log-domain value, used for the `AddAll(-total)` and
`-= probsSum` normalizations.  The source only ever negates finite totals;
the `⊥` branch is unreachable there (Go would produce `+∞`). -/
noncomputable def negV : Vr → Vr
  | ⊥ => ⊥
  | (x : ℝ) => ((-x : ℝ) : Vr)

/-- Difference of two log-domain values, used for the final
`res[state] -= probsSum` of `Dist`.  The source only subtracts a finite
total from finite entries; other branches are unreachable there. -/
noncomputable def subV : Vr → Vr → Vr
  | (a : ℝ), (b : ℝ) => ((a - b : ℝ) : Vr)
  | _, _ => ⊥

/-- `statesToIndices`: the Go map is built by forward iteration (a later
duplicate state overwrites an earlier one) and lookup of an absent state
returns the zero value 0. -/
def s2i (states : List ℕ) (s : ℕ) : ℕ :=
  states.enum.foldl (fun acc e => if e.2 = s then e.1 else acc) 0

/-- The `fastTransition` record: a transition in state-index form. -/
structure fastTransition where
  From : ℕ
  To : ℕ
  Prob : Vr

/-- The `hmmCache`: state-to-index mapping plus the flattened transition
list (Go map iteration order is modelled as the `Transitions` list
order). -/
structure hmmCache where
  S2I : ℕ → ℕ
  Transitions : List fastTransition

/-- `newHMMCache`. -/
def newHMMCache (h : HMM ℝ) : hmmCache :=
  ⟨s2i h.States,
    h.Transitions.map (fun tr =>
      ⟨s2i h.States tr.1.1, s2i h.States tr.1.2, tr.2⟩)⟩

/-- The `fastStateMap`: a dense value array (Go zero value `0.0` for never
written slots) plus a presence array. -/
structure fastStateMap where
  values : List Vr
  present : List Bool

/-- `newFastStateMap`: all slots absent. -/
def newFastStateMap (h : HMM ℝ) : fastStateMap :=
  ⟨List.replicate h.States.length ((0 : ℝ) : Vr),
    List.replicate h.States.length false⟩

/-- `newFastStateMapFrom`: per state, Go's two-valued map read
`res.values[i], res.present[i] = m[state]` (a miss stores the zero value
and `false`). -/
def newFastStateMapFrom (h : HMM ℝ) (m : List (ℕ × Vr)) : fastStateMap :=
  ⟨h.States.map (fun s => (m.lookup s).getD ((0 : ℝ) : Vr)),
    h.States.map (fun s => (m.lookup s).isSome)⟩

/-- `Get`. -/
def fastStateMap.Get (f : fastStateMap) (i : ℕ) : Vr × Bool :=
  (f.values.getD i ((0 : ℝ) : Vr), f.present.getD i false)

/-- `Set`. -/
def fastStateMap.Set (f : fastStateMap) (i : ℕ) (v : Vr) : fastStateMap :=
  ⟨f.values.set i v, f.present.set i true⟩

/-- `AddLog`: no-op for `−∞`, otherwise `addLogs` into a present entry or a
plain store into an absent one. -/
noncomputable def fastStateMap.AddLog (f : fastStateMap) (i : ℕ) (x : Vr) :
    fastStateMap :=
  match x with
  | ⊥ => f
  | _ =>
    if f.present.getD i false then
      f.Set i (addLogs (f.values.getD i ((0 : ℝ) : Vr)) x)
    else f.Set i x

/-- `AddAll`: add a value to every present entry. -/
noncomputable def fastStateMap.AddAll (f : fastStateMap) (x : Vr) :
    fastStateMap :=
  ⟨f.values.enum.map (fun e =>
      if f.present.getD e.1 false then e.2 + x else e.2),
    f.present⟩

/-- `Map`: convert back to a state-keyed association list, iterating the
presence array in index order. -/
def fastStateMap.Map (f : fastStateMap) (h : HMM ℝ) : List (ℕ × Vr) :=
  (List.range f.present.length).filterMap (fun i =>
    if f.present.getD i false then
      some (h.States.getD i 0, f.values.getD i ((0 : ℝ) : Vr))
    else none)

/-- Entry `i` of the Go `h.Emitter.LogProbs(o, h.States...)` array. -/
def emitAt (h : HMM ℝ) (o : ℕ) (i : ℕ) : Vr :=
  h.Emitter.logProb o (h.States.getD i 0)

/-- One iteration of the `forwardProbs` loop: the emitted output map for
this observation (present entries of the running distribution plus this
observation's emission, dropping `−∞`) and the next running distribution
(propagation through every transition record). -/
noncomputable def forwardStep (c : hmmCache) (h : HMM ℝ)
    (dist : fastStateMap) (o : ℕ) : List (ℕ × Vr) × fastStateMap :=
  let outJoints := (List.range dist.present.length).filterMap (fun i =>
    if dist.present.getD i false then
      match dist.values.getD i ((0 : ℝ) : Vr) + emitAt h o i with
      | ⊥ => none
      | p => some (h.States.getD i 0, p)
    else none)
  let newDist := c.Transitions.foldl (fun nd tr =>
    match dist.Get tr.From with
    | (_, false) => nd
    | (prior, true) => nd.AddLog tr.To (prior + tr.Prob + emitAt h o tr.From))
    (newFastStateMap h)
  (outJoints, newDist)

/-- The `forwardProbs` goroutine loop: one output per observation. -/
noncomputable def forwardOuts (c : hmmCache) (h : HMM ℝ) :
    List ℕ → fastStateMap → List (List (ℕ × Vr))
  | [], _ => []
  | o :: os, dist =>
    let st := forwardStep c h dist o
    st.1 :: forwardOuts c h os st.2

/-- `forwardProbs`: run the loop from the initial distribution. -/
noncomputable def forwardProbs (c : hmmCache) (h : HMM ℝ) (obs : List ℕ) :
    List (List (ℕ × Vr)) :=
  forwardOuts c h obs (newFastStateMapFrom h h.Init)

/-- `ForwardProbs` (public entry point, with the empty-sequence fast
path). -/
noncomputable def ForwardProbs (h : HMM ℝ) (obs : List ℕ) :
    List (List (ℕ × Vr)) :=
  if obs.isEmpty then [] else forwardProbs (newHMMCache h) h obs

/-- Body of the terminal-state loop of `initialBackwardDist` for one
transition record: store the transition's log-probability at its
from-index when the destination is the terminal index and the
log-probability is finite. -/
def initialBackwardStep (ti : ℕ) (f : fastStateMap) (tr : fastTransition) :
    fastStateMap :=
  if tr.To = ti then
    match tr.Prob with
    | ⊥ => f
    | _ => f.Set tr.From tr.Prob
  else f

/-- `initialBackwardDist`: with no terminal state every state starts at
log-probability 0; with a terminal state, each transition into the
terminal index stores its (finite) log-probability at its from-index. -/
def initialBackwardDist (c : hmmCache) (h : HMM ℝ) : fastStateMap :=
  match h.TerminalState with
  | none =>
    (List.range h.States.length).foldl
      (fun f i => f.Set i ((0 : ℝ) : Vr)) (newFastStateMap h)
  | some t =>
    c.Transitions.foldl (initialBackwardStep (c.S2I t)) (newFastStateMap h)

/-- One iteration of the `backwardProbs` loop: the next running
distribution, propagating backward through every transition record. -/
noncomputable def backwardStep (c : hmmCache) (h : HMM ℝ)
    (dist : fastStateMap) (o : ℕ) : fastStateMap :=
  c.Transitions.foldl (fun nd tr =>
    match dist.Get tr.To with
    | (_, false) => nd
    | (nextProb, true) =>
      nd.AddLog tr.From (tr.Prob + nextProb + emitAt h o tr.To))
    (newFastStateMap h)

/-- The `backwardProbs` goroutine loop over the reversed observations: the
current distribution is emitted before the update, one output per
observation, in reverse temporal order. -/
noncomputable def backwardOuts (c : hmmCache) (h : HMM ℝ) :
    List ℕ → fastStateMap → List (List (ℕ × Vr))
  | [], _ => []
  | o :: os, dist => dist.Map h :: backwardOuts c h os (backwardStep c h dist o)

/-- `backwardProbs`: run the reversed loop from the initial backward
distribution. -/
noncomputable def backwardProbs (c : hmmCache) (h : HMM ℝ) (obs : List ℕ) :
    List (List (ℕ × Vr)) :=
  backwardOuts c h obs.reverse (initialBackwardDist c h)

/-- `BackwardProbs` (public entry point, with the empty-sequence fast
path). -/
noncomputable def BackwardProbs (h : HMM ℝ) (obs : List ℕ) :
    List (List (ℕ × Vr)) :=
  if obs.isEmpty then [] else backwardProbs (newHMMCache h) h obs

/-- The standalone `LogLikelihood`: empty sequences read the terminal
state's initial probability; otherwise marginalize the last forward output
against the initial backward distribution. -/
noncomputable def LogLikelihood (h : HMM ℝ) (obs : List ℕ) : Vr :=
  match obs with
  | [] =>
    match h.TerminalState with
    | none => ((0 : ℝ) : Vr)
    | some t =>
      match h.Init.lookup t with
      | some prob => prob
      | none => ⊥
  | _ :: _ =>
    let cache := newHMMCache h
    let firstBwdFwd := (initialBackwardDist cache h).Map h
    let lastFwdBwd := (forwardProbs cache h obs).getLastD []
    lastFwdBwd.foldl (fun sum sv =>
      match firstBwdFwd.lookup sv.1 with
      | some prob => addLogs sum (prob + sv.2)
      | none => sum) ⊥

/-- The `ForwardBackward` combinator result: both streams fully drained
into arrays (the fork-join concurrency is deterministic, so the arrays are
exactly the two streams). -/
structure ForwardBackward where
  HMM : HMM ℝ
  Obs : List ℕ
  ForwardOut : List (List (ℕ × Vr))
  BackwardOut : List (List (ℕ × Vr))
  cache : hmmCache

/-- `NewForwardBackward`. -/
noncomputable def NewForwardBackward (h : HMM ℝ) (obs : List ℕ) :
    ForwardBackward :=
  let c := newHMMCache h
  ⟨h, obs, forwardProbs c h obs, backwardProbs c h obs, c⟩

/-- `ForwardBackward.LogLikelihood`: empty sequences read the terminal
state's initial probability; otherwise marginalize the last forward output
against the first backward output. -/
noncomputable def ForwardBackward.LogLikelihood (f : ForwardBackward) : Vr :=
  match f.Obs with
  | [] =>
    match f.HMM.TerminalState with
    | none => ((0 : ℝ) : Vr)
    | some t =>
      match f.HMM.Init.lookup t with
      | some prob => prob
      | none => ⊥
  | _ :: _ =>
    let fwdDist := f.ForwardOut.getLastD []
    let bwdDist := f.BackwardOut.headD []
    fwdDist.foldl (fun probsSum sv =>
      match bwdDist.lookup sv.1 with
      | some bwdProb => addLogs probsSum (sv.2 + bwdProb)
      | none => probsSum) ⊥

/-- `ForwardBackward.Dist`: for each state of the forward output at `t`
that the backward output at `len − (t+1)` also contains, sum the two
values, accumulate the `addLogs` running total, then subtract the total
from every collected entry. -/
noncomputable def ForwardBackward.Dist (f : ForwardBackward) (t : ℕ) :
    List (ℕ × Vr) :=
  let bwdDist := f.BackwardOut.getD (f.BackwardOut.length - (t + 1)) []
  let fwdDist := f.ForwardOut.getD t []
  let rp := fwdDist.foldl (fun (acc : List (ℕ × Vr) × Vr) sv =>
    match bwdDist.lookup sv.1 with
    | some bwdProb =>
      (acc.1 ++ [(sv.1, sv.2 + bwdProb)], addLogs acc.2 (sv.2 + bwdProb))
    | none => acc) ([], ⊥)
  rp.1.map (fun sv => (sv.1, subV sv.2 rp.2))

/-- Mutation of `fromDists[i]` through the Go slice of pointers: apply the
update when the slot is non-nil (the source only touches initialized
slots). -/
noncomputable def updateFrom (l : List (Option fastStateMap)) (i : ℕ)
    (g : fastStateMap → fastStateMap) : List (Option fastStateMap) :=
  l.set i ((l.getD i none).map g)

/-- Body of `fastCondDist` after its bounds check: per-from-state joint
accumulators over destination states, normalized by the per-from-state
`addLogs` totals. -/
noncomputable def ForwardBackward.fastCondDistImpl (f : ForwardBackward)
    (t : ℕ) : List (Option fastStateMap) :=
  let bwdDist := newFastStateMapFrom f.HMM
    (f.BackwardOut.getD (f.BackwardOut.length - (t + 1)) [])
  let prevDist := newFastStateMapFrom f.HMM (f.Dist (t - 1))
  let fromDists0 : List (Option fastStateMap) :=
    (List.range f.HMM.States.length).map (fun i =>
      if prevDist.present.getD i false then some (newFastStateMap f.HMM)
      else none)
  let res := f.cache.Transitions.foldl
    (fun (acc : List (Option fastStateMap) × fastStateMap) tr =>
      match prevDist.Get tr.From with
      | (_, false) => acc
      | (prevProb, true) =>
        if t = f.Obs.length then
          match f.HMM.TerminalState with
          | some term =>
            if tr.To = f.cache.S2I term then
              (updateFrom acc.1 tr.From
                  (fun fd => fd.AddLog tr.To (prevProb + tr.Prob)),
                acc.2.AddLog tr.From (prevProb + tr.Prob))
            else acc
          | none =>
            (updateFrom acc.1 tr.From
                (fun fd => fd.AddLog tr.To (prevProb + tr.Prob)),
              acc.2.AddLog tr.From (prevProb + tr.Prob))
        else
          match bwdDist.Get tr.To with
          | (_, false) => acc
          | (bwdProb, true) =>
            let endProb := prevProb + tr.Prob +
              (bwdProb + emitAt f.HMM (f.Obs.getD t 0) tr.To)
            (updateFrom acc.1 tr.From (fun fd => fd.AddLog tr.To endProb),
              acc.2.AddLog tr.From endProb))
    (fromDists0, newFastStateMap f.HMM)
  (List.range res.2.present.length).foldl (fun fds i =>
    if res.2.present.getD i false then
      updateFrom fds i
        (fun fd => fd.AddAll (negV (res.2.values.getD i ((0 : ℝ) : Vr))))
    else fds) res.1

/-- `fastCondDist` with its bounds check: `none` models the Go
`panic("time out of bounds")` aborting the call for `t = 0` or
`t > len(obs)`. -/
noncomputable def ForwardBackward.fastCondDist (f : ForwardBackward)
    (t : ℕ) : Option (List (Option fastStateMap)) :=
  if t = 0 ∨ t > f.Obs.length then none
  else some (f.fastCondDistImpl t)

/-- `CondDist`: the state-keyed view of `fastCondDist` (and it aborts
whenever `fastCondDist` does). -/
noncomputable def ForwardBackward.CondDist (f : ForwardBackward) (t : ℕ) :
    Option (List (ℕ × List (ℕ × Vr))) :=
  (f.fastCondDist t).map (fun fastRes =>
    (List.range f.HMM.States.length).filterMap (fun i =>
      match fastRes.getD i none with
      | some fd => some (f.HMM.States.getD i 0, fd.Map f.HMM)
      | none => none))

/-- Effective log-probability stored at an index of a `fastStateMap`: the
stored value when present, `−∞` when absent. -/
def fastStateMap.eff (f : fastStateMap) (i : ℕ) : Vr :=
  if f.present.getD i false then f.values.getD i ((0 : ℝ) : Vr) else ⊥

section EngineListLemmas

variable {β : Type}

theorem getD_set_self (l : List β) (i : ℕ) (v d : β) (h : i < l.length) :
    (l.set i v).getD i d = v := by
  simp [List.getD_eq_getElem?_getD, List.getElem?_set_self', h]

theorem getD_set_ne (l : List β) (i j : ℕ) (v d : β) (hij : i ≠ j) :
    (l.set i v).getD j d = l.getD j d := by
  simp [List.getD_eq_getElem?_getD, List.getElem?_set_ne hij]

theorem getD_replicate (n i : ℕ) (b d : β) :
    (List.replicate n b).getD i d = if i < n then b else d := by
  by_cases h : i < n
  · simp [List.getD_eq_getElem?_getD, List.getElem?_replicate, h]
  · simp [List.getD_eq_getElem?_getD, List.getElem?_replicate, h]

theorem lookup_eq_none_of_not_mem_keys {κ : Type} [BEq κ] [LawfulBEq κ]
    [DecidableEq κ] {l : List (κ × β)} {k : κ}
    (h : k ∉ l.map Prod.fst) : l.lookup k = none := by
  induction l with
  | nil => rfl
  | cons e rest ih =>
    rw [lookup_cons]
    simp only [List.map_cons, List.mem_cons] at h
    push_neg at h
    rw [if_neg h.1]
    exact ih h.2

end EngineListLemmas

section EffLemmas

theorem eff_Set_self (f : fastStateMap) (i : ℕ) (v : Vr)
    (h1 : i < f.present.length) (h2 : i < f.values.length) :
    (f.Set i v).eff i = v := by
  rw [fastStateMap.eff, fastStateMap.Set]
  simp only [getD_set_self _ _ _ _ h1, getD_set_self _ _ _ _ h2]
  simp

theorem eff_Set_ne (f : fastStateMap) (i j : ℕ) (v : Vr) (hij : i ≠ j) :
    (f.Set i v).eff j = f.eff j := by
  rw [fastStateMap.eff, fastStateMap.Set, fastStateMap.eff]
  simp only [getD_set_ne _ _ _ _ _ hij]

theorem eff_new (h : HMM ℝ) (j : ℕ) : (newFastStateMap h).eff j = ⊥ := by
  rw [fastStateMap.eff, newFastStateMap]
  simp [getD_replicate]

theorem Set_lengths (f : fastStateMap) (i : ℕ) (v : Vr) :
    (f.Set i v).values.length = f.values.length ∧
      (f.Set i v).present.length = f.present.length := by
  simp [fastStateMap.Set]

end EffLemmas

section S2ILemmas

theorem s2i_spec (S : List ℕ) (s : ℕ) (hs : s ∈ S) :
    S.getD (s2i S s) 0 = s ∧ s2i S s < S.length := by
  rw [s2i]
  have key : ∀ (l : List (ℕ × ℕ)) (acc : ℕ),
      (∀ e ∈ l, S.getD e.1 0 = e.2 ∧ e.1 < S.length) →
      ((s ∈ l.map Prod.snd) ∨ (S.getD acc 0 = s ∧ acc < S.length)) →
      S.getD (l.foldl (fun acc e => if e.2 = s then e.1 else acc) acc) 0 = s ∧
        l.foldl (fun acc e => if e.2 = s then e.1 else acc) acc < S.length := by
    intro l
    induction l with
    | nil =>
      intro acc hall hbase
      rcases hbase with hmem | hb
      · simp at hmem
      · exact hb
    | cons e l ih =>
      intro acc hall hbase
      rw [List.foldl_cons]
      by_cases he : e.2 = s
      · rw [if_pos he]
        refine ih e.1 (fun x hx => hall x (List.mem_cons_of_mem _ hx)) (Or.inr ?_)
        obtain ⟨hg, hl⟩ := hall e (List.mem_cons_self _ _)
        exact ⟨he ▸ hg, hl⟩
      · rw [if_neg he]
        refine ih acc (fun x hx => hall x (List.mem_cons_of_mem _ hx)) ?_
        rcases hbase with hmem | hb
        · rw [List.map_cons] at hmem
          rcases List.mem_cons.mp hmem with hh | hh
          · exact absurd hh.symm he
          · exact Or.inl hh
        · exact Or.inr hb
  refine key S.enum 0 (fun e he => ⟨?_, List.fst_lt_of_mem_enum he⟩)
    (Or.inl (by rw [List.enum_map_snd]; exact hs))
  have hh := List.mem_enum_iff_getElem?.mp he
  simp [List.getD_eq_getElem?_getD, hh]

theorem s2i_inj {S : List ℕ} {a b : ℕ} (ha : a ∈ S) (hb : b ∈ S)
    (heq : s2i S a = s2i S b) : a = b := by
  have h1 := (s2i_spec S a ha).1
  have h2 := (s2i_spec S b hb).1
  rw [← h1, ← h2, heq]

end S2ILemmas

/-- C8: for every `ForwardBackward` built over an observation sequence of
length `T`, `CondDist` and `fastCondDist` abort the call (the Go
`panic("time out of bounds")`, modelled as `none`) exactly when `t` lies
outside `[1, T]`, and complete normally with a conditional-distribution
value for every `t` in `[1, T]`. -/
theorem condDist_aborts_iff_out_of_bounds (h : HMM ℝ) (obs : List ℕ)
    (t : ℕ) :
    (((NewForwardBackward h obs).fastCondDist t).isSome = true ↔
      1 ≤ t ∧ t ≤ obs.length) ∧
    (((NewForwardBackward h obs).CondDist t).isSome = true ↔
      1 ≤ t ∧ t ≤ obs.length) := by
  have hObs : (NewForwardBackward h obs).Obs = obs := rfl
  have hfast : (NewForwardBackward h obs).fastCondDist t =
      if t = 0 ∨ t > obs.length then none
      else some ((NewForwardBackward h obs).fastCondDistImpl t) := by
    simp only [ForwardBackward.fastCondDist, hObs]
  have key : (((NewForwardBackward h obs).fastCondDist t).isSome = true ↔
      1 ≤ t ∧ t ≤ obs.length) := by
    rw [hfast]
    by_cases hc : t = 0 ∨ t > obs.length
    · rw [if_pos hc]
      simp only [Option.isSome_none, Bool.false_eq_true, false_iff]
      omega
    · rw [if_neg hc]
      simp only [Option.isSome_some, true_iff]
      omega
  refine ⟨key, ?_⟩
  rw [ForwardBackward.CondDist, hfast]
  by_cases hc : t = 0 ∨ t > obs.length
  · rw [if_pos hc]
    simp only [Option.map_none', Option.isSome_none, Bool.false_eq_true,
      false_iff]
    omega
  · rw [if_neg hc]
    simp only [Option.map_some', Option.isSome_some, true_iff]
    omega

/-- Terminal-state case of the backward initialization: folding
`initialBackwardStep` over the index-converted transition list stores, at
each model state's index, exactly the model's transition log-probability
into the terminal state (absence and a stored `−∞` both read back as
`⊥`). -/
theorem eff_initialBackwardStep_foldl (h : HMM ℝ) (t : ℕ)
    (hnd : h.States.Nodup) (htS : t ∈ h.States) (s : ℕ) (hsS : s ∈ h.States) :
    ∀ (T : List ((ℕ × ℕ) × Vr)), (T.map Prod.fst).Nodup →
      (∀ tr ∈ T, tr.1.1 ∈ h.States ∧ tr.1.2 ∈ h.States) →
      ((T.map (fun tr =>
          (⟨s2i h.States tr.1.1, s2i h.States tr.1.2, tr.2⟩ : fastTransition))).foldl
        (initialBackwardStep (s2i h.States t)) (newFastStateMap h)).eff
          (s2i h.States s) =
        (T.lookup (s, t)).getD ⊥ := by
  intro T
  induction T using List.reverseRecOn with
  | nil =>
    intro hkeys hsub
    rw [List.map_nil, List.foldl_nil, eff_new]
    rfl
  | append_singleton T' e ihT =>
    intro hkeys hsub
    have hkeys' : (T'.map Prod.fst).Nodup := by
      rw [List.map_append] at hkeys
      exact (List.nodup_append.mp hkeys).1
    have hsub' : ∀ tr ∈ T', tr.1.1 ∈ h.States ∧ tr.1.2 ∈ h.States :=
      fun tr htr => hsub tr (List.mem_append_left _ htr)
    have heS : e.1.1 ∈ h.States ∧ e.1.2 ∈ h.States :=
      hsub e (List.mem_append_right _ (List.mem_cons_self _ _))
    have ihT' := ihT hkeys' hsub'
    rw [List.map_append, List.map_singleton, List.foldl_append,
      List.foldl_cons, List.foldl_nil]
    set g := (T'.map (fun tr =>
      (⟨s2i h.States tr.1.1, s2i h.States tr.1.2, tr.2⟩ : fastTransition))).foldl
      (initialBackwardStep (s2i h.States t)) (newFastStateMap h) with hg
    have hglen : g.values.length = h.States.length ∧
        g.present.length = h.States.length := by
      rw [hg]
      have hpres : ∀ (L : List fastTransition) (f : fastStateMap),
          ((L.foldl (initialBackwardStep (s2i h.States t)) f).values.length =
            f.values.length ∧
          (L.foldl (initialBackwardStep (s2i h.States t)) f).present.length =
            f.present.length) := by
        intro L
        induction L with
        | nil =>
          intro f
          exact ⟨rfl, rfl⟩
        | cons tr L ihL =>
          intro f
          rw [List.foldl_cons]
          rcases ihL (initialBackwardStep (s2i h.States t) f tr) with ⟨hv, hp⟩
          rw [hv, hp]
          rw [initialBackwardStep]
          by_cases hto : tr.To = s2i h.States t
          · rw [if_pos hto]
            cases htrp : tr.Prob with
            | none => exact ⟨rfl, rfl⟩
            | some x => simp [fastStateMap.Set]
          · rw [if_neg hto]
            exact ⟨rfl, rfl⟩
      obtain ⟨hv, hp⟩ := hpres (T'.map (fun tr =>
        (⟨s2i h.States tr.1.1, s2i h.States tr.1.2, tr.2⟩ : fastTransition)))
        (newFastStateMap h)
      rw [hv, hp]
      simp [newFastStateMap]
    rw [List.lookup_append]
    by_cases hcase : e.1 = (s, t)
    · have hnot : (s, t) ∉ T'.map Prod.fst := by
        rw [List.map_append] at hkeys
        have hdisj := List.disjoint_of_nodup_append hkeys
        intro hmem
        exact hdisj hmem (by simp [hcase])
      rw [lookup_eq_none_of_not_mem_keys hnot, Option.none_or, lookup_cons,
        if_pos (by rw [hcase]), initialBackwardStep]
      have hfrom : s2i h.States e.1.1 = s2i h.States s := by rw [hcase]
      have hto : s2i h.States e.1.2 = s2i h.States t := by rw [hcase]
      rw [if_pos hto]
      cases hprob : e.2 with
      | none =>
        rw [ihT', lookup_eq_none_of_not_mem_keys hnot]
        rfl
      | some x =>
        rw [hfrom,
          eff_Set_self g _ _ (hglen.2 ▸ (s2i_spec h.States s hsS).2)
            (hglen.1 ▸ (s2i_spec h.States s hsS).2)]
        rfl
    · have hlook : (if (s, t) = e.1 then some e.2 else List.lookup (s, t) []) =
          none := by
        rw [if_neg (fun hh => hcase hh.symm)]
        rfl
      rw [lookup_cons, hlook, Option.or_none]
      rw [initialBackwardStep]
      by_cases hto : s2i h.States e.1.2 = s2i h.States t
      · have he2 : e.1.2 = t := s2i_inj heS.2 htS hto
        have he1 : e.1.1 ≠ s := by
          intro hh
          exact hcase (by rw [← hh, ← he2])
        rw [if_pos hto]
        cases hprob : e.2 with
        | none => exact ihT'
        | some x =>
          rw [eff_Set_ne g _ _ _
            (fun hh => he1 (s2i_inj heS.1 hsS hh))]
          exact ihT'
      · rw [if_neg hto]
        exact ihT'

/-- C4: the backward pass's initial running distribution assigns effective
log-probability 0 to every state index when no terminal state is
configured; with a terminal state `t`, each state's effective
log-probability is exactly the model's transition log-probability into `t`
from that state (`−∞`, i.e. absence, when no such transition entry exists,
and also when the entry itself stores `−∞`, which the loop skips).  The
hypotheses say the states list is duplicate-free, transition keys are
duplicate-free (a Go map guarantee), and transitions mention only model
states. -/
theorem initialBackwardDist_spec (h : HMM ℝ)
    (hnd : h.States.Nodup)
    (hkeys : (h.Transitions.map Prod.fst).Nodup)
    (hsub : ∀ tr ∈ h.Transitions, tr.1.1 ∈ h.States ∧ tr.1.2 ∈ h.States) :
    (h.TerminalState = none →
      ∀ i < h.States.length,
        (initialBackwardDist (newHMMCache h) h).eff i = ((0 : ℝ) : Vr)) ∧
    (∀ t, h.TerminalState = some t → t ∈ h.States →
      ∀ s ∈ h.States,
        (initialBackwardDist (newHMMCache h) h).eff (s2i h.States s) =
          (h.Transitions.lookup (s, t)).getD ⊥) := by
  constructor
  · intro hterm i hi
    simp only [initialBackwardDist, hterm]
    have hzero : ∀ (L : List ℕ) (f : fastStateMap),
        (∀ j ∈ L, j < f.present.length ∧ j < f.values.length) →
        ∀ j, ((L.foldl (fun f i => f.Set i ((0 : ℝ) : Vr)) f).eff j =
          if j ∈ L then ((0 : ℝ) : Vr) else f.eff j) := by
      intro L
      induction L with
      | nil =>
        intro f hlen j
        simp
      | cons i0 L ih =>
        intro f hlen j
        rw [List.foldl_cons, ih]
        · by_cases hjL : j ∈ L
          · simp [hjL]
          · by_cases hji : j = i0
            · subst hji
              obtain ⟨h1, h2⟩ := hlen j (List.mem_cons_self _ _)
              simp [hjL, eff_Set_self f j _ h1 h2]
            · simp [hjL, hji, eff_Set_ne f i0 j _ (fun hh => hji hh.symm)]
        · intro j' hj'
          obtain ⟨h1, h2⟩ := hlen j' (List.mem_cons_of_mem _ hj')
          simp [fastStateMap.Set, h1, h2]
    rw [hzero (List.range h.States.length) (newFastStateMap h) ?_ i]
    · rw [if_pos (List.mem_range.mpr hi)]
    · intro j hj
      rw [newFastStateMap]
      simp [List.mem_range.mp hj]
  · intro t hterm htS s hsS
    simp only [initialBackwardDist, hterm]
    have hcache : (newHMMCache h).Transitions =
        h.Transitions.map (fun tr =>
          (⟨s2i h.States tr.1.1, s2i h.States tr.1.2, tr.2⟩ : fastTransition)) := rfl
    have hti : (newHMMCache h).S2I t = s2i h.States t := rfl
    rw [hcache, hti]
    exact eff_initialBackwardStep_foldl h t hnd htS s hsS h.Transitions hkeys hsub

/-- Concrete model for the backward-initialization witness: terminal state
2 with one transition into it. -/
def c4HMM : HMM ℝ :=
  ⟨[0, 1, 2], some 2, .fn (fun _ _ => ((0 : ℝ) : Vr)),
    [(0, ((0 : ℝ) : Vr))], [((0, 2), ((0 : ℝ) : Vr))]⟩

/-- Witness for the backward-initialization theorem at a concrete model:
all hypotheses are discharged by computation on the key structure. -/
theorem initialBackwardDist_spec_witness :
    c4HMM.States.Nodup ∧
    (c4HMM.Transitions.map Prod.fst).Nodup ∧
    (∀ tr ∈ c4HMM.Transitions, tr.1.1 ∈ c4HMM.States ∧ tr.1.2 ∈ c4HMM.States) ∧
    ((c4HMM.TerminalState = none →
      ∀ i < c4HMM.States.length,
        (initialBackwardDist (newHMMCache c4HMM) c4HMM).eff i =
          ((0 : ℝ) : Vr)) ∧
    (∀ t, c4HMM.TerminalState = some t → t ∈ c4HMM.States →
      ∀ s ∈ c4HMM.States,
        (initialBackwardDist (newHMMCache c4HMM) c4HMM).eff (s2i c4HMM.States s) =
          (c4HMM.Transitions.lookup (s, t)).getD ⊥)) :=
  ⟨by decide, by decide, by decide,
    initialBackwardDist_spec c4HMM (by decide) (by decide) (by decide)⟩

section AddLogsLemmas

theorem addLogs_bot_bot : addLogs ⊥ ⊥ = ⊥ := by
  rw [addLogs]

theorem addLogs_coe_bot (a : ℝ) : addLogs (a : Vr) ⊥ = (a : Vr) := by
  have hmax : max ((a : ℝ) : Vr) (⊥ : Vr) = ((a : ℝ) : Vr) := max_eq_left bot_le
  rw [addLogs, hmax]
  show ((Real.log (Real.exp (a - a) + 0) + a : ℝ) : Vr) = ((a : ℝ) : Vr)
  rw [sub_self, Real.exp_zero, add_zero, Real.log_one, zero_add]

theorem addLogs_bot_coe (a : ℝ) : addLogs ⊥ (a : Vr) = (a : Vr) := by
  have hmax : max (⊥ : Vr) ((a : ℝ) : Vr) = ((a : ℝ) : Vr) := max_eq_right bot_le
  rw [addLogs, hmax]
  show ((Real.log (0 + Real.exp (a - a)) + a : ℝ) : Vr) = ((a : ℝ) : Vr)
  rw [sub_self, Real.exp_zero, zero_add, Real.log_one, zero_add]

theorem addLogs_coe_coe (a b : ℝ) :
    addLogs (a : Vr) (b : Vr) =
      ((Real.log (Real.exp (a - max a b) + Real.exp (b - max a b)) +
        max a b : ℝ) : Vr) := by
  rw [addLogs, ← WithBot.coe_max]
  rfl

/-- C6: `addLogs` on inputs that are each finite or `−∞` follows the
max-shift rule exactly: both-`−∞` inputs give `−∞` (the special case
avoiding `log 0`); finite/`−∞` mixes return the finite input unchanged; on
two finite inputs the result is `log(exp(x−max) + exp(y−max)) + max`, and
the argument of `log` is at least 1 (exact-real form of "no NaN is ever
produced": the logarithm is never taken at zero or a negative value). -/
theorem addLogs_spec :
    (∀ a b : ℝ, addLogs (a : Vr) (b : Vr) =
        ((Real.log (Real.exp (a - max a b) + Real.exp (b - max a b)) +
          max a b : ℝ) : Vr) ∧
      1 ≤ Real.exp (a - max a b) + Real.exp (b - max a b)) ∧
    (∀ a : ℝ, addLogs (a : Vr) ⊥ = (a : Vr) ∧ addLogs ⊥ (a : Vr) = (a : Vr)) ∧
    addLogs ⊥ ⊥ = ⊥ := by
  refine ⟨fun a b => ⟨addLogs_coe_coe a b, ?_⟩,
    fun a => ⟨addLogs_coe_bot a, addLogs_bot_coe a⟩, addLogs_bot_bot⟩
  rcases max_cases a b with ⟨hm, hab⟩ | ⟨hm, hab⟩
  · rw [hm, sub_self, Real.exp_zero]
    have := Real.exp_pos (b - a)
    linarith
  · rw [hm, sub_self, Real.exp_zero]
    have := Real.exp_pos (a - b)
    linarith

theorem expW_bot : expW ⊥ = 0 := rfl

theorem expW_coe (a : ℝ) : expW (a : Vr) = Real.exp a := rfl

theorem expW_pos {a : ℝ} : 0 < expW (a : Vr) := Real.exp_pos a

theorem expW_nonneg (x : Vr) : 0 ≤ expW x := by
  induction x using WithBot.recBotCoe with
  | bot => exact le_refl 0
  | coe a => exact le_of_lt (Real.exp_pos a)

/-- The defining property of `addLogs` under exponentiation: it adds
probabilities. -/
theorem expW_addLogs (x y : Vr) : expW (addLogs x y) = expW x + expW y := by
  induction x using WithBot.recBotCoe with
  | bot =>
    induction y using WithBot.recBotCoe with
    | bot =>
      rw [addLogs_bot_bot, expW_bot]
      norm_num
    | coe b =>
      rw [addLogs_bot_coe, expW_bot, zero_add]
  | coe a =>
    induction y using WithBot.recBotCoe with
    | bot =>
      rw [addLogs_coe_bot, expW_bot, add_zero]
    | coe b =>
      rw [addLogs_coe_coe, expW_coe, expW_coe, expW_coe]
      have hpos : 0 < Real.exp (a - max a b) + Real.exp (b - max a b) := by
        have := Real.exp_pos (a - max a b)
        have := Real.exp_pos (b - max a b)
        linarith
      rw [Real.exp_add, Real.exp_log hpos, add_mul, ← Real.exp_add,
        ← Real.exp_add, sub_add_cancel, sub_add_cancel]

theorem addLogs_ne_bot {x y : Vr} (h : x ≠ ⊥ ∨ y ≠ ⊥) : addLogs x y ≠ ⊥ := by
  intro hb
  have := expW_addLogs x y
  rw [hb, expW_bot] at this
  rcases h with hx | hy
  · rcases Option.ne_none_iff_exists'.mp hx with ⟨a, rfl⟩
    have h1 := Real.exp_pos a
    have h2 := expW_nonneg y
    rw [show expW (some a : Vr) = Real.exp a from rfl] at this
    linarith
  · rcases Option.ne_none_iff_exists'.mp hy with ⟨a, rfl⟩
    have h1 := Real.exp_pos a
    have h2 := expW_nonneg x
    rw [show expW (some a : Vr) = Real.exp a from rfl] at this
    linarith

end AddLogsLemmas

section LogLikelihoodLemmas

theorem backwardOuts_headD (c : hmmCache) (h : HMM ℝ) (l : List ℕ)
    (d : fastStateMap) (hl : l ≠ []) :
    (backwardOuts c h l d).headD [] = d.Map h := by
  cases l with
  | nil => exact absurd rfl hl
  | cons x xs => rfl

theorem backwardProbs_headD (c : hmmCache) (h : HMM ℝ) (obs : List ℕ)
    (hobs : obs ≠ []) :
    (backwardProbs c h obs).headD [] = (initialBackwardDist c h).Map h := by
  rw [backwardProbs]
  exact backwardOuts_headD c h obs.reverse _ (by simp [hobs])

theorem expW_llFold (bwd : List (ℕ × Vr)) :
    ∀ (l : List (ℕ × Vr)) (init : Vr),
      expW (l.foldl (fun probsSum sv =>
        match bwd.lookup sv.1 with
        | some b => addLogs probsSum (sv.2 + b)
        | none => probsSum) init) =
      expW init +
        ((l.filter (fun sv => (bwd.lookup sv.1).isSome)).map
          (fun sv => expW (sv.2 + (bwd.lookup sv.1).getD ⊥))).sum := by
  intro l
  induction l with
  | nil =>
    intro init
    simp
  | cons sv l ih =>
    intro init
    rw [List.foldl_cons, List.filter_cons]
    cases hb : bwd.lookup sv.1 with
    | none =>
      simp only [hb, Option.isSome_none]
      rw [if_neg (by simp)]
      exact ih _
    | some b =>
      simp only [hb, Option.isSome_some, if_true]
      rw [List.map_cons, List.sum_cons, ih _, expW_addLogs]
      simp only [hb, Option.getD_some]
      ring

theorem fold_ll_comm (bwd : List (ℕ × Vr)) :
    ∀ (l : List (ℕ × Vr)) (init : Vr),
      l.foldl (fun sum sv =>
        match bwd.lookup sv.1 with
        | some prob => addLogs sum (prob + sv.2)
        | none => sum) init =
      l.foldl (fun probsSum sv =>
        match bwd.lookup sv.1 with
        | some b => addLogs probsSum (sv.2 + b)
        | none => probsSum) init := by
  intro l
  induction l with
  | nil =>
    intro init
    rfl
  | cons sv l ih =>
    intro init
    rw [List.foldl_cons, List.foldl_cons]
    cases hb : bwd.lookup sv.1 with
    | none =>
      simp only [hb]
      exact ih _
    | some b =>
      simp only [hb]
      rw [add_comm b sv.2]
      exact ih _

end LogLikelihoodLemmas

/-- C3: `ForwardBackward.LogLikelihood` returns, for an empty observation
sequence, 0 without a terminal state and otherwise the model's initial
log-probability of the terminal state (`−∞` when absent); for a non-empty
sequence it returns the `addLogs` (log-sum-exp) marginalization over the
states present in both the last forward distribution and the first
backward distribution of `forward + backward`, characterized here in the
probability domain: its exponential is the sum of the exponentials of
those shared sums (log-sum-exp is uniquely determined by this since
`expW` is injective). -/
theorem fb_logLikelihood_spec (h : HMM ℝ) (obs : List ℕ) :
    (obs = [] → h.TerminalState = none →
      (NewForwardBackward h obs).LogLikelihood = ((0 : ℝ) : Vr)) ∧
    (obs = [] → ∀ t, h.TerminalState = some t →
      (NewForwardBackward h obs).LogLikelihood = (h.Init.lookup t).getD ⊥) ∧
    (obs ≠ [] →
      expW (NewForwardBackward h obs).LogLikelihood =
        ((((NewForwardBackward h obs).ForwardOut.getLastD []).filter
            (fun sv => (((NewForwardBackward h obs).BackwardOut.headD
              []).lookup sv.1).isSome)).map
          (fun sv => expW (sv.2 + (((NewForwardBackward h obs).BackwardOut.headD
            []).lookup sv.1).getD ⊥))).sum) := by
  refine ⟨?_, ?_, ?_⟩
  · intro hobs hterm
    subst hobs
    have key : (NewForwardBackward h []).LogLikelihood =
        (match h.TerminalState with
          | none => ((0 : ℝ) : Vr)
          | some t =>
            match h.Init.lookup t with
            | some prob => prob
            | none => ⊥) := rfl
    rw [key, hterm]
  · intro hobs t hterm
    subst hobs
    have key : (NewForwardBackward h []).LogLikelihood =
        (match h.TerminalState with
          | none => ((0 : ℝ) : Vr)
          | some t =>
            match h.Init.lookup t with
            | some prob => prob
            | none => ⊥) := rfl
    rw [key, hterm]
    show (match h.Init.lookup t with
      | some prob => prob
      | none => ⊥) = (h.Init.lookup t).getD ⊥
    cases hl : h.Init.lookup t <;> rfl
  · intro hobs
    cases obs with
    | nil => exact absurd rfl hobs
    | cons o os =>
      have key : (NewForwardBackward h (o :: os)).LogLikelihood =
          (((NewForwardBackward h (o :: os)).ForwardOut.getLastD []).foldl
            (fun probsSum sv =>
              match ((NewForwardBackward h (o :: os)).BackwardOut.headD
                []).lookup sv.1 with
              | some bwdProb => addLogs probsSum (sv.2 + bwdProb)
              | none => probsSum) ⊥) := rfl
      rw [key, expW_llFold]
      rw [expW_bot, zero_add]

/-- Concrete model used to witness the `LogLikelihood` characterization. -/
def c3HMM : HMM ℝ :=
  ⟨[0], none, .fn (fun _ _ => ((0 : ℝ) : Vr)), [(0, ((0 : ℝ) : Vr))], []⟩

/-- Witness for the `LogLikelihood` characterization: the empty-sequence,
no-terminal branch and the non-empty branch, both at concrete inputs. -/
theorem fb_logLikelihood_spec_witness :
    (([] : List ℕ) = [] ∧ c3HMM.TerminalState = none ∧
      (NewForwardBackward c3HMM []).LogLikelihood = ((0 : ℝ) : Vr)) ∧
    (([0] : List ℕ) ≠ [] ∧
      expW (NewForwardBackward c3HMM [0]).LogLikelihood =
        ((((NewForwardBackward c3HMM [0]).ForwardOut.getLastD []).filter
            (fun sv => (((NewForwardBackward c3HMM [0]).BackwardOut.headD
              []).lookup sv.1).isSome)).map
          (fun sv => expW (sv.2 + (((NewForwardBackward c3HMM [0]).BackwardOut.headD
            []).lookup sv.1).getD ⊥))).sum) :=
  ⟨⟨rfl, rfl, (fb_logLikelihood_spec c3HMM []).1 rfl rfl⟩,
    ⟨by decide, (fb_logLikelihood_spec c3HMM [0]).2.2 (by decide)⟩⟩

/-- C10: the standalone `LogLikelihood` function agrees exactly with
`NewForwardBackward(...).LogLikelihood()`: the first distribution the
backward pass emits is the initial backward distribution, the last
distribution the forward pass emits is the final forward output, and the
two marginalizations fold the same values (in swapped addition order), so
both empty-sequence branches and the non-empty branch coincide. -/
theorem logLikelihood_agrees (h : HMM ℝ) (obs : List ℕ) :
    LogLikelihood h obs = (NewForwardBackward h obs).LogLikelihood := by
  cases obs with
  | nil => rfl
  | cons o os =>
    have e1 : LogLikelihood h (o :: os) =
        ((forwardProbs (newHMMCache h) h (o :: os)).getLastD []).foldl
          (fun sum sv =>
            match ((initialBackwardDist (newHMMCache h) h).Map h).lookup sv.1 with
            | some prob => addLogs sum (prob + sv.2)
            | none => sum) ⊥ := rfl
    have e2 : (NewForwardBackward h (o :: os)).LogLikelihood =
        ((forwardProbs (newHMMCache h) h (o :: os)).getLastD []).foldl
          (fun probsSum sv =>
            match ((backwardProbs (newHMMCache h) h (o :: os)).headD
              []).lookup sv.1 with
            | some bwdProb => addLogs probsSum (sv.2 + bwdProb)
            | none => probsSum) ⊥ := rfl
    rw [e1, e2, backwardProbs_headD (newHMMCache h) h (o :: os) (by simp)]
    exact fold_ll_comm _ _ _

/-- C9: for a degenerate model with zero states (hence no transitions and
an empty initial distribution), every algorithm yields empty results
rather than an error: `ForwardProbs` and `BackwardProbs` emit one empty
distribution per observation, `Dist` returns an empty map at every
timestep, and `MostLikely` returns `nil` (modelled as `none`). -/
theorem degenerate_empty_model (h : HMM ℝ) (obs : List ℕ)
    (hS : h.States = []) (hI : h.Init = []) (hT : h.Transitions = []) :
    ForwardProbs h obs = List.replicate obs.length [] ∧
    BackwardProbs h obs = List.replicate obs.length [] ∧
    (∀ t, (NewForwardBackward h obs).Dist t = []) ∧
    MostLikely h obs = none := by
  have hcacheT : (newHMMCache h).Transitions = [] := by
    simp [newHMMCache, hT]
  have hnew : newFastStateMap h = ⟨[], []⟩ := by
    simp [newFastStateMap, hS]
  have hfrom : ∀ m, newFastStateMapFrom h m = ⟨[], []⟩ := by
    intro m
    simp [newFastStateMapFrom, hS]
  have hstepF : ∀ (d : fastStateMap) o, d.present = [] →
      forwardStep (newHMMCache h) h d o = ([], ⟨[], []⟩) := by
    intro d o hd
    rw [forwardStep, hd, hcacheT, hnew]
    rfl
  have hfwdOuts : ∀ os, forwardOuts (newHMMCache h) h os ⟨[], []⟩ =
      List.replicate os.length [] := by
    intro os
    induction os with
    | nil => rfl
    | cons o os ih =>
      rw [forwardOuts, hstepF ⟨[], []⟩ o rfl]
      rw [List.length_cons, List.replicate_succ]
      exact congrArg (List.cons []) ih
  have hfwd : forwardProbs (newHMMCache h) h obs =
      List.replicate obs.length [] := by
    rw [forwardProbs, hfrom]
    exact hfwdOuts obs
  have hibd : initialBackwardDist (newHMMCache h) h = ⟨[], []⟩ := by
    rw [initialBackwardDist]
    cases h.TerminalState with
    | none =>
      rw [hS, hnew]
      rfl
    | some t =>
      rw [hcacheT, hnew]
      rfl
  have hbwdStep : ∀ (d : fastStateMap) o,
      backwardStep (newHMMCache h) h d o = ⟨[], []⟩ := by
    intro d o
    rw [backwardStep, hcacheT, hnew]
    rfl
  have hbwdOuts : ∀ l, backwardOuts (newHMMCache h) h l ⟨[], []⟩ =
      List.replicate l.length [] := by
    intro l
    induction l with
    | nil => rfl
    | cons o l ih =>
      rw [backwardOuts, hbwdStep ⟨[], []⟩ o]
      rw [List.length_cons, List.replicate_succ]
      exact congrArg (List.cons _) ih
  have hbwd : backwardProbs (newHMMCache h) h obs =
      List.replicate obs.length [] := by
    rw [backwardProbs, hibd, hbwdOuts obs.reverse, List.length_reverse]
  refine ⟨?_, ?_, ?_, ?_⟩
  · rw [ForwardProbs]
    by_cases he : obs.isEmpty
    · rw [if_pos he]
      rw [List.isEmpty_iff] at he
      rw [he]
      rfl
    · rw [if_neg he]
      exact hfwd
  · rw [BackwardProbs]
    by_cases he : obs.isEmpty
    · rw [if_pos he]
      rw [List.isEmpty_iff] at he
      rw [he]
      rfl
    · rw [if_neg he]
      exact hbwd
  · intro t
    have hFout : (NewForwardBackward h obs).ForwardOut =
        List.replicate obs.length [] := hfwd
    have hBout : (NewForwardBackward h obs).BackwardOut =
        List.replicate obs.length [] := hbwd
    rw [ForwardBackward.Dist, hFout, hBout]
    have hget : ∀ k, (List.replicate obs.length ([] : List (ℕ × Vr))).getD k
        [] = [] := by
      intro k
      rw [getD_replicate]
      by_cases hk : k < obs.length
      · rw [if_pos hk]
      · rw [if_neg hk]
    rw [List.length_replicate, hget, hget]
    rfl
  · rw [MostLikely]
    have hinit : initPaths h = [] := by
      simp [initPaths, hI]
    have hloop : ∀ os, viterbiLoop h os ([] : Paths ℝ) = [] := by
      intro os
      induction os with
      | nil => rfl
      | cons o os ih =>
        rw [viterbiLoop]
        have hobs1 : viterbiObservation h o ([] : Paths ℝ) = [] := rfl
        have htrans : viterbiTransition h ([] : Paths ℝ) = [] := by
          rw [viterbiTransition, hT]
          rfl
        by_cases hc : (h.TerminalState.isSome || !List.isEmpty os) = true
        · rw [if_pos hc, hobs1, htrans]
          exact ih
        · rw [if_neg hc, hobs1]
          exact ih
    rw [hinit, hloop]
    cases h.TerminalState with
    | none => rfl
    | some t => rfl

/-- Concrete zero-state model and observation sequence witnessing the
degenerate-model theorem. -/
def c9HMM : HMM ℝ := ⟨[], none, .fn (fun _ _ => ⊥), [], []⟩

/-- Witness for the degenerate-model theorem at a concrete input. -/
theorem degenerate_empty_model_witness :
    c9HMM.States = [] ∧ c9HMM.Init = [] ∧ c9HMM.Transitions = [] ∧
    (ForwardProbs c9HMM [7] = List.replicate ([7] : List ℕ).length [] ∧
      BackwardProbs c9HMM [7] = List.replicate ([7] : List ℕ).length [] ∧
      (∀ t, (NewForwardBackward c9HMM [7]).Dist t = []) ∧
      MostLikely c9HMM [7] = none) :=
  ⟨rfl, rfl, rfl, degenerate_empty_model c9HMM [7] rfl rfl rfl⟩

section DistLemmas

/-- The state-keyed pairs shared by a forward and a backward distribution,
each mapped to the sum of its two log-values, in forward-iteration
order. -/
noncomputable def sharedPairs (fwd bwd : List (ℕ × Vr)) : List (ℕ × Vr) :=
  fwd.filterMap (fun sv => (bwd.lookup sv.1).map (fun b => (sv.1, sv.2 + b)))

/-- The running `addLogs` total of the shared pair values (the log-sum-exp
normalizer of `Dist`). -/
noncomputable def distTotal (fwd bwd : List (ℕ × Vr)) : Vr :=
  (sharedPairs fwd bwd).foldl (fun acc sv => addLogs acc sv.2) ⊥

theorem dist_foldl_spec (bwd : List (ℕ × Vr)) :
    ∀ (l : List (ℕ × Vr)) (acc : List (ℕ × Vr) × Vr),
      l.foldl (fun (acc : List (ℕ × Vr) × Vr) sv =>
        match bwd.lookup sv.1 with
        | some bwdProb =>
          (acc.1 ++ [(sv.1, sv.2 + bwdProb)], addLogs acc.2 (sv.2 + bwdProb))
        | none => acc) acc =
      (acc.1 ++ sharedPairs l bwd,
        (sharedPairs l bwd).foldl (fun a sv => addLogs a sv.2) acc.2) := by
  intro l
  induction l with
  | nil =>
    intro acc
    simp [sharedPairs]
  | cons sv l ih =>
    intro acc
    rw [List.foldl_cons]
    cases hb : bwd.lookup sv.1 with
    | none =>
      have hsp : sharedPairs (sv :: l) bwd = sharedPairs l bwd := by
        rw [sharedPairs, List.filterMap_cons, hb]
        rfl
      simp only [hb]
      rw [ih acc, hsp]
    | some b =>
      have hsp : sharedPairs (sv :: l) bwd =
          (sv.1, sv.2 + b) :: sharedPairs l bwd := by
        rw [sharedPairs, List.filterMap_cons, hb]
        rfl
      simp only [hb]
      rw [ih _, hsp, List.foldl_cons]
      simp [List.append_assoc]

theorem Dist_eq (f : ForwardBackward) (t : ℕ) :
    f.Dist t =
      (sharedPairs (f.ForwardOut.getD t [])
          (f.BackwardOut.getD (f.BackwardOut.length - (t + 1)) [])).map
        (fun sv => (sv.1, subV sv.2
          (distTotal (f.ForwardOut.getD t [])
            (f.BackwardOut.getD (f.BackwardOut.length - (t + 1)) [])))) := by
  have e : f.Dist t =
      (((f.ForwardOut.getD t []).foldl
        (fun (acc : List (ℕ × Vr) × Vr) sv =>
          match (f.BackwardOut.getD (f.BackwardOut.length - (t + 1)) []).lookup
            sv.1 with
          | some bwdProb =>
            (acc.1 ++ [(sv.1, sv.2 + bwdProb)], addLogs acc.2 (sv.2 + bwdProb))
          | none => acc) ([], ⊥)).1).map
        (fun sv => (sv.1, subV sv.2
          (((f.ForwardOut.getD t []).foldl
            (fun (acc : List (ℕ × Vr) × Vr) sv =>
              match (f.BackwardOut.getD (f.BackwardOut.length - (t + 1))
                []).lookup sv.1 with
              | some bwdProb =>
                (acc.1 ++ [(sv.1, sv.2 + bwdProb)],
                  addLogs acc.2 (sv.2 + bwdProb))
              | none => acc) ([], ⊥)).2))) := rfl
  rw [e, dist_foldl_spec]
  rfl

/-- Invariant: every present slot of a `fastStateMap` holds a finite
value. -/
def noBotFSM (f : fastStateMap) : Prop :=
  ∀ i, f.present.getD i false = true → f.values.getD i ((0 : ℝ) : Vr) ≠ ⊥

/-- Invariant: both arrays of a `fastStateMap` have the model size. -/
def lensFSM (f : fastStateMap) (n : ℕ) : Prop :=
  f.values.length = n ∧ f.present.length = n

theorem lensFSM_new (h : HMM ℝ) : lensFSM (newFastStateMap h) h.States.length := by
  constructor <;> simp [newFastStateMap]

theorem lensFSM_from (h : HMM ℝ) (m : List (ℕ × Vr)) :
    lensFSM (newFastStateMapFrom h m) h.States.length := by
  constructor <;> simp [newFastStateMapFrom]

theorem lensFSM_Set {f : fastStateMap} {n : ℕ} (hf : lensFSM f n) (i : ℕ)
    (v : Vr) : lensFSM (f.Set i v) n := by
  obtain ⟨h1, h2⟩ := hf
  constructor <;> simp [fastStateMap.Set, h1, h2]

theorem AddLog_bot (f : fastStateMap) (i : ℕ) : f.AddLog i ⊥ = f := rfl

theorem AddLog_coe (f : fastStateMap) (i : ℕ) (a : ℝ) :
    f.AddLog i ((a : ℝ) : Vr) =
      if f.present.getD i false then
        f.Set i (addLogs (f.values.getD i ((0 : ℝ) : Vr)) ((a : ℝ) : Vr))
      else f.Set i ((a : ℝ) : Vr) := rfl

theorem lensFSM_AddLog {f : fastStateMap} {n : ℕ} (hf : lensFSM f n) (i : ℕ)
    (x : Vr) : lensFSM (f.AddLog i x) n := by
  induction x using WithBot.recBotCoe with
  | bot =>
    rw [AddLog_bot]
    exact hf
  | coe a =>
    rw [AddLog_coe]
    by_cases hp : f.present.getD i false
    · rw [if_pos hp]
      exact lensFSM_Set hf _ _
    · rw [if_neg hp]
      exact lensFSM_Set hf _ _

theorem noBotFSM_new (h : HMM ℝ) : noBotFSM (newFastStateMap h) := by
  intro i hi
  rw [newFastStateMap] at hi
  simp only [getD_replicate] at hi
  by_cases hlt : i < h.States.length
  · rw [if_pos hlt] at hi
    cases hi
  · rw [if_neg hlt] at hi
    cases hi

theorem noBotFSM_Set {f : fastStateMap} {n : ℕ} (hlen : lensFSM f n)
    (hf : noBotFSM f) {v : Vr} (hv : v ≠ ⊥) (i : ℕ) :
    noBotFSM (f.Set i v) := by
  intro j hj
  rw [fastStateMap.Set] at hj ⊢
  by_cases hij : i = j
  · subst hij
    by_cases hlt : i < n
    · rw [getD_set_self _ _ _ _ (hlen.1 ▸ hlt)]
      exact hv
    · have h2 : f.present.length ≤ i := by
        rw [hlen.2]
        omega
      have h1 : f.values.length ≤ i := by
        rw [hlen.1]
        omega
      rw [List.set_eq_of_length_le h2] at hj
      rw [List.set_eq_of_length_le h1]
      exact hf i hj
  · rw [getD_set_ne _ _ _ _ _ hij] at hj
    rw [getD_set_ne _ _ _ _ _ hij]
    exact hf j hj

theorem noBotFSM_AddLog {f : fastStateMap} {n : ℕ} (hlen : lensFSM f n)
    (hf : noBotFSM f) (i : ℕ) (x : Vr) : noBotFSM (f.AddLog i x) := by
  induction x using WithBot.recBotCoe with
  | bot =>
    rw [AddLog_bot]
    exact hf
  | coe a =>
    rw [AddLog_coe]
    by_cases hp : f.present.getD i false
    · rw [if_pos hp]
      exact noBotFSM_Set hlen hf
        (addLogs_ne_bot (Or.inr WithBot.coe_ne_bot)) i
    · rw [if_neg hp]
      exact noBotFSM_Set hlen hf WithBot.coe_ne_bot i

theorem Map_values_ne_bot {f : fastStateMap} (h : HMM ℝ)
    (hf : noBotFSM f) : ∀ sv ∈ f.Map h, sv.2 ≠ ⊥ := by
  intro sv hsv
  rcases List.mem_filterMap.mp hsv with ⟨i, hi, hsome⟩
  by_cases hp : f.present.getD i false
  · rw [if_pos hp] at hsome
    cases hsome
    exact hf i hp
  · rw [if_neg hp] at hsome
    cases hsome

theorem lensFSM_backwardStep (c : hmmCache) (h : HMM ℝ)
    (dist : fastStateMap) (o : ℕ) :
    lensFSM (backwardStep c h dist o) h.States.length := by
  rw [backwardStep]
  have key : ∀ (L : List fastTransition) (f : fastStateMap),
      lensFSM f h.States.length →
      lensFSM (L.foldl (fun nd tr =>
        match dist.Get tr.To with
        | (_, false) => nd
        | (nextProb, true) =>
          nd.AddLog tr.From (tr.Prob + nextProb + emitAt h o tr.To)) f)
        h.States.length := by
    intro L
    induction L with
    | nil =>
      intro f hf
      exact hf
    | cons tr L ih =>
      intro f hf
      rw [List.foldl_cons]
      apply ih
      rcases hGet : dist.Get tr.To with ⟨nextProb, b⟩
      cases b with
      | false => exact hf
      | true => exact lensFSM_AddLog hf _ _
  exact key _ _ (lensFSM_new h)

theorem noBotFSM_backwardStep (c : hmmCache) (h : HMM ℝ)
    (dist : fastStateMap) (o : ℕ) :
    noBotFSM (backwardStep c h dist o) := by
  rw [backwardStep]
  have key : ∀ (L : List fastTransition) (f : fastStateMap),
      lensFSM f h.States.length → noBotFSM f →
      noBotFSM (L.foldl (fun nd tr =>
        match dist.Get tr.To with
        | (_, false) => nd
        | (nextProb, true) =>
          nd.AddLog tr.From (tr.Prob + nextProb + emitAt h o tr.To)) f) := by
    intro L
    induction L with
    | nil =>
      intro f hfl hf
      exact hf
    | cons tr L ih =>
      intro f hfl hf
      rw [List.foldl_cons]
      rcases hGet : dist.Get tr.To with ⟨nextProb, b⟩
      cases b with
      | false => exact ih f hfl hf
      | true =>
        exact ih _ (lensFSM_AddLog hfl _ _) (noBotFSM_AddLog hfl hf _ _)
  exact key _ _ (lensFSM_new h) (noBotFSM_new h)

theorem noBotFSM_initialBackwardDist (c : hmmCache) (h : HMM ℝ) :
    noBotFSM (initialBackwardDist c h) ∧
      lensFSM (initialBackwardDist c h) h.States.length := by
  rw [initialBackwardDist]
  cases h.TerminalState with
  | none =>
    have key : ∀ (L : List ℕ) (f : fastStateMap),
        lensFSM f h.States.length → noBotFSM f →
        noBotFSM (L.foldl (fun f i => f.Set i ((0 : ℝ) : Vr)) f) ∧
          lensFSM (L.foldl (fun f i => f.Set i ((0 : ℝ) : Vr)) f)
            h.States.length := by
      intro L
      induction L with
      | nil =>
        intro f hfl hf
        exact ⟨hf, hfl⟩
      | cons i L ih =>
        intro f hfl hf
        rw [List.foldl_cons]
        exact ih _ (lensFSM_Set hfl _ _)
          (noBotFSM_Set hfl hf WithBot.coe_ne_bot i)
    exact (key _ _ (lensFSM_new h) (noBotFSM_new h)).imp id id
  | some t =>
    have key : ∀ (L : List fastTransition) (f : fastStateMap),
        lensFSM f h.States.length → noBotFSM f →
        noBotFSM (L.foldl (initialBackwardStep (c.S2I t)) f) ∧
          lensFSM (L.foldl (initialBackwardStep (c.S2I t)) f)
            h.States.length := by
      intro L
      induction L with
      | nil =>
        intro f hfl hf
        exact ⟨hf, hfl⟩
      | cons tr L ih =>
        intro f hfl hf
        rw [List.foldl_cons, initialBackwardStep]
        by_cases hto : tr.To = c.S2I t
        · rw [if_pos hto]
          cases htr : tr.Prob with
          | none => exact ih f hfl hf
          | some a =>
            refine ih _ (lensFSM_Set hfl _ _)
              (noBotFSM_Set hfl hf ?_ _)
            exact fun hh => Option.noConfusion hh
        · rw [if_neg hto]
          exact ih f hfl hf
    exact (key _ _ (lensFSM_new h) (noBotFSM_new h)).imp id id

/-- Every distribution the backward pass emits holds only finite values. -/
theorem backwardOuts_values_ne_bot (c : hmmCache) (h : HMM ℝ) :
    ∀ (l : List ℕ) (d : fastStateMap), noBotFSM d →
      lensFSM d h.States.length →
      ∀ out ∈ backwardOuts c h l d, ∀ sv ∈ out, sv.2 ≠ ⊥ := by
  intro l
  induction l with
  | nil =>
    intro d hd hdl out hout
    simp [backwardOuts] at hout
  | cons o l ih =>
    intro d hd hdl out hout
    rw [backwardOuts] at hout
    rcases List.mem_cons.mp hout with hout | hout
    · subst hout
      exact Map_values_ne_bot h hd
    · exact ih (backwardStep c h d o) (noBotFSM_backwardStep c h d o)
        (lensFSM_backwardStep c h d o) out hout

theorem forwardStep_fst (c : hmmCache) (h : HMM ℝ) (dist : fastStateMap)
    (o : ℕ) :
    (forwardStep c h dist o).1 =
      (List.range dist.present.length).filterMap (fun i =>
        if dist.present.getD i false then
          match dist.values.getD i ((0 : ℝ) : Vr) + emitAt h o i with
          | ⊥ => none
          | p => some (h.States.getD i 0, p)
        else none) := rfl

theorem lensFSM_forwardStep (c : hmmCache) (h : HMM ℝ) (dist : fastStateMap)
    (o : ℕ) : lensFSM (forwardStep c h dist o).2 h.States.length := by
  have key : ∀ (L : List fastTransition) (f : fastStateMap),
      lensFSM f h.States.length →
      lensFSM (L.foldl (fun nd tr =>
        match dist.Get tr.From with
        | (_, false) => nd
        | (prior, true) =>
          nd.AddLog tr.To (prior + tr.Prob + emitAt h o tr.From)) f)
        h.States.length := by
    intro L
    induction L with
    | nil =>
      intro f hf
      exact hf
    | cons tr L ih =>
      intro f hf
      rw [List.foldl_cons]
      apply ih
      rcases hGet : dist.Get tr.From with ⟨prior, b⟩
      cases b with
      | false => exact hf
      | true => exact lensFSM_AddLog hf _ _
  exact key _ _ (lensFSM_new h)

theorem forwardOuts_length (c : hmmCache) (h : HMM ℝ) :
    ∀ (os : List ℕ) (d : fastStateMap),
      (forwardOuts c h os d).length = os.length := by
  intro os
  induction os with
  | nil =>
    intro d
    rfl
  | cons o os ih =>
    intro d
    rw [forwardOuts]
    rw [List.length_cons, List.length_cons, ih]

theorem backwardOuts_length (c : hmmCache) (h : HMM ℝ) :
    ∀ (l : List ℕ) (d : fastStateMap),
      (backwardOuts c h l d).length = l.length := by
  intro l
  induction l with
  | nil =>
    intro d
    rfl
  | cons o l ih =>
    intro d
    rw [backwardOuts]
    rw [List.length_cons, List.length_cons, ih]

/-- Every distribution the forward pass emits has duplicate-free state
keys and only finite values (entries whose sum collapses to `−∞` are
dropped before emission). -/
theorem forwardOuts_mem (c : hmmCache) (h : HMM ℝ) (hnd : h.States.Nodup) :
    ∀ (os : List ℕ) (d : fastStateMap), d.present.length = h.States.length →
      ∀ out ∈ forwardOuts c h os d,
        (out.map Prod.fst).Nodup ∧ ∀ sv ∈ out, sv.2 ≠ ⊥ := by
  intro os
  induction os with
  | nil =>
    intro d hd out hout
    exact absurd hout (List.not_mem_nil out)
  | cons o os ih =>
    intro d hd out hout
    rw [forwardOuts] at hout
    rcases List.mem_cons.mp hout with hout | hout
    · subst hout
      rw [forwardStep_fst]
      have hval : ∀ (x : ℕ) (pr : ℕ × Vr),
          (if d.present.getD x false then
            match d.values.getD x ((0 : ℝ) : Vr) + emitAt h o x with
            | ⊥ => none
            | p => some (h.States.getD x 0, p)
          else none) = some pr →
          pr.1 = h.States.getD x 0 ∧ x < h.States.length ∧ pr.2 ≠ ⊥ := by
        intro x pr hx
        by_cases hp : d.present.getD x false
        · rw [if_pos hp] at hx
          have hxlt : x < h.States.length := by
            rw [← hd]
            by_cases hlt : x < d.present.length
            · exact hlt
            · rw [List.getD_eq_default _ _ (by omega)] at hp
              cases hp
          cases hm : d.values.getD x ((0 : ℝ) : Vr) + emitAt h o x with
          | none =>
            rw [hm] at hx
            exact Option.noConfusion hx
          | some v =>
            rw [hm] at hx
            have hpr : ((h.States.getD x 0, (some v : Vr)) : ℕ × Vr) = pr :=
              Option.some.inj hx
            refine ⟨?_, hxlt, ?_⟩
            · rw [← hpr]
            · rw [← hpr]
              exact fun hh => Option.noConfusion hh
        · rw [if_neg hp] at hx
          exact Option.noConfusion hx
      constructor
      · rw [List.map_filterMap]
        refine List.Nodup.filterMap ?_ (List.nodup_range _)
        intro a a' b hb hb'
        simp only [Option.mem_def, Option.map_eq_some'] at hb hb'
        rcases hb with ⟨pr, hpr, hb1⟩
        rcases hb' with ⟨pr', hpr', hb1'⟩
        obtain ⟨h1, h2, -⟩ := hval a pr hpr
        obtain ⟨h1', h2', -⟩ := hval a' pr' hpr'
        have heq : h.States.getD a 0 = h.States.getD a' 0 := by
          rw [← h1, ← h1', hb1, hb1']
        rw [List.getD_eq_getElem _ _ h2, List.getD_eq_getElem _ _ h2'] at heq
        exact hnd.getElem_inj_iff.mp heq
      · intro sv hsv
        rcases List.mem_filterMap.mp hsv with ⟨i, hi, hsome⟩
        exact (hval i sv hsome).2.2
    · exact ih (forwardStep c h d o).2 (lensFSM_forwardStep c h d o).2 out hout

theorem sharedPairs_keys_sub {fwd bwd : List (ℕ × Vr)} {k : ℕ}
    (hk : k ∈ (sharedPairs fwd bwd).map Prod.fst) : k ∈ fwd.map Prod.fst := by
  rcases List.mem_map.mp hk with ⟨sv, hsv, rfl⟩
  rcases List.mem_filterMap.mp hsv with ⟨sv0, hsv0, hsome⟩
  cases hb : bwd.lookup sv0.1 with
  | none =>
    rw [hb] at hsome
    cases hsome
  | some b =>
    rw [hb] at hsome
    cases hsome
    exact List.mem_map.mpr ⟨sv0, hsv0, rfl⟩

theorem sharedPairs_lookup (fwd bwd : List (ℕ × Vr))
    (hnd : (fwd.map Prod.fst).Nodup) (s : ℕ) :
    (sharedPairs fwd bwd).lookup s =
      (fwd.lookup s).bind (fun a => (bwd.lookup s).map (fun b => a + b)) := by
  induction fwd with
  | nil => rfl
  | cons sv fwd ih =>
    rw [List.map_cons, List.nodup_cons] at hnd
    cases hb : bwd.lookup sv.1 with
    | none =>
      have hstep : sharedPairs (sv :: fwd) bwd = sharedPairs fwd bwd := by
        simp only [sharedPairs, List.filterMap_cons, hb, Option.map_none']
      rw [hstep, lookup_cons]
      by_cases hs : s = sv.1
      · rw [if_pos hs, hs, hb]
        have hnone : (sharedPairs fwd bwd).lookup sv.1 = none := by
          apply lookup_eq_none_of_not_mem_keys
          intro hmem
          exact hnd.1 (sharedPairs_keys_sub hmem)
        rw [hnone]
        rfl
      · rw [if_neg hs]
        exact ih hnd.2
    | some b =>
      have hstep : sharedPairs (sv :: fwd) bwd =
          (sv.1, sv.2 + b) :: sharedPairs fwd bwd := by
        simp only [sharedPairs, List.filterMap_cons, hb, Option.map_some']
      rw [hstep, lookup_cons, lookup_cons]
      by_cases hs : s = sv.1
      · rw [if_pos hs, if_pos hs, hs, hb]
        rfl
      · rw [if_neg hs, if_neg hs]
        exact ih hnd.2

theorem sharedPairs_values_ne_bot {fwd bwd : List (ℕ × Vr)}
    (hfwd : ∀ sv ∈ fwd, sv.2 ≠ ⊥) (hbwd : ∀ sv ∈ bwd, sv.2 ≠ ⊥) :
    ∀ sv ∈ sharedPairs fwd bwd, sv.2 ≠ ⊥ := by
  intro sv hsv
  rcases List.mem_filterMap.mp hsv with ⟨sv0, hsv0, hsome⟩
  cases hb : bwd.lookup sv0.1 with
  | none =>
    rw [hb] at hsome
    cases hsome
  | some b =>
    rw [hb] at hsome
    cases hsome
    exact WithBot.add_ne_bot.mpr
      ⟨hfwd sv0 hsv0, hbwd (sv0.1, b) (lookup_mem hb)⟩

theorem expW_addLogs_fold :
    ∀ (l : List (ℕ × Vr)) (init : Vr),
      expW (l.foldl (fun a sv => addLogs a sv.2) init) =
        expW init + (l.map (fun sv => expW sv.2)).sum := by
  intro l
  induction l with
  | nil =>
    intro init
    simp
  | cons sv l ih =>
    intro init
    simp only [List.foldl_cons, List.map_cons, List.sum_cons]
    rw [ih, expW_addLogs]
    ring

theorem sum_expW_subV (c : ℝ) :
    ∀ (l : List (ℕ × Vr)), (∀ sv ∈ l, sv.2 ≠ ⊥) →
      (l.map (fun sv => expW (subV sv.2 ((c : ℝ) : Vr)))).sum =
        (l.map (fun sv => expW sv.2)).sum / Real.exp c := by
  intro l
  induction l with
  | nil =>
    intro hl
    simp
  | cons sv l ih =>
    intro hl
    simp only [List.map_cons, List.sum_cons]
    rw [ih (fun x hx => hl x (List.mem_cons_of_mem _ hx))]
    rcases Option.ne_none_iff_exists'.mp (hl sv (List.mem_cons_self _ _))
      with ⟨a, ha⟩
    rw [ha]
    have h1 : expW (subV (some a : Vr) ((c : ℝ) : Vr)) =
        Real.exp a / Real.exp c := by
      rw [show subV (some a : Vr) ((c : ℝ) : Vr) = ((a - c : ℝ) : Vr) from rfl,
        expW_coe, Real.exp_sub]
    have h2 : expW (some a : Vr) = Real.exp a := rfl
    rw [h1, h2, add_div]

/-- Normalization: when at least one shared state exists, the
exponentials of the normalized `Dist` values sum to exactly 1. -/
theorem dist_sum_one {fwd bwd : List (ℕ × Vr)}
    (hne : sharedPairs fwd bwd ≠ [])
    (hnb : ∀ sv ∈ sharedPairs fwd bwd, sv.2 ≠ ⊥) :
    (((sharedPairs fwd bwd).map (fun sv =>
      (sv.1, subV sv.2 (distTotal fwd bwd)))).map
        (fun sv => expW sv.2)).sum = 1 := by
  have hexp : expW (distTotal fwd bwd) =
      ((sharedPairs fwd bwd).map (fun sv => expW sv.2)).sum := by
    rw [distTotal, expW_addLogs_fold, expW_bot, zero_add]
  have hpos : 0 < ((sharedPairs fwd bwd).map (fun sv => expW sv.2)).sum := by
    cases hsp : sharedPairs fwd bwd with
    | nil => exact absurd hsp hne
    | cons p rest =>
      rw [List.map_cons, List.sum_cons]
      have h1 : 0 < expW p.2 := by
        rcases Option.ne_none_iff_exists'.mp
          (hnb p (hsp ▸ List.mem_cons_self _ _)) with ⟨a, ha⟩
        rw [ha]
        exact Real.exp_pos a
      have h2 : 0 ≤ (rest.map (fun sv => expW sv.2)).sum :=
        List.sum_nonneg (by
          intro x hx
          rcases List.mem_map.mp hx with ⟨sv, hsv, rfl⟩
          exact expW_nonneg sv.2)
      linarith
  have hTne : distTotal fwd bwd ≠ ⊥ := by
    intro hb
    rw [hb, expW_bot] at hexp
    linarith
  rcases Option.ne_none_iff_exists'.mp hTne with ⟨T, hT⟩
  have hmm : (((sharedPairs fwd bwd).map (fun sv =>
      (sv.1, subV sv.2 (distTotal fwd bwd)))).map (fun sv => expW sv.2)) =
      (sharedPairs fwd bwd).map (fun sv =>
        expW (subV sv.2 ((T : ℝ) : Vr))) := by
    rw [List.map_map]
    apply List.map_congr_left
    intro sv hsv
    rw [Function.comp_apply, hT]
    rfl
  rw [hmm, sum_expW_subV T _ hnb, ← hexp, hT]
  exact div_self (Real.exp_ne_zero T)

theorem sharedPairs_keys (fwd bwd : List (ℕ × Vr)) :
    (sharedPairs fwd bwd).map Prod.fst =
      (fwd.map Prod.fst).filter (fun s => (bwd.lookup s).isSome) := by
  induction fwd with
  | nil => rfl
  | cons sv fwd ih =>
    cases hb : bwd.lookup sv.1 with
    | none =>
      have hstep : sharedPairs (sv :: fwd) bwd = sharedPairs fwd bwd := by
        simp only [sharedPairs, List.filterMap_cons, hb, Option.map_none']
      rw [hstep, ih, List.map_cons,
        List.filter_cons_of_neg (by simp [hb])]
    | some b =>
      have hstep : sharedPairs (sv :: fwd) bwd =
          (sv.1, sv.2 + b) :: sharedPairs fwd bwd := by
        simp only [sharedPairs, List.filterMap_cons, hb, Option.map_some']
      rw [hstep, List.map_cons, ih, List.map_cons,
        List.filter_cons_of_pos (by simp [hb])]

theorem map_fst_map_pairs (l : List (ℕ × Vr)) (T : Vr) :
    (l.map (fun sv => (sv.1, subV sv.2 T))).map Prod.fst = l.map Prod.fst := by
  rw [List.map_map]
  apply List.map_congr_left
  intro sv hsv
  rfl

theorem dist_lookup_gen (fwd bwd : List (ℕ × Vr))
    (hfnd : (fwd.map Prod.fst).Nodup) (s : ℕ) :
    ((sharedPairs fwd bwd).map (fun sv =>
        (sv.1, subV sv.2 (distTotal fwd bwd)))).lookup s =
      (fwd.lookup s).bind (fun a => (bwd.lookup s).map
        (fun b => subV (a + b) (distTotal fwd bwd))) := by
  have hlk := lookup_map_value (fun _ v => subV v (distTotal fwd bwd))
    (sharedPairs fwd bwd) s
  rw [hlk, sharedPairs_lookup fwd bwd hfnd s]
  cases hfa : fwd.lookup s with
  | none => rfl
  | some a =>
    cases hfb : bwd.lookup s with
    | none => rfl
    | some b => rfl

end DistLemmas

/-- C2: for every model, every observation sequence and every time
`t < T`, `Dist t` contains exactly the states present in both
`ForwardOut[t]` and `BackwardOut[T−1−t]` (first conjunct: its key list is
the forward key list filtered on backward presence); each such state maps
to its forward value plus its backward value minus the running `logSumExp`
total of those sums (second conjunct, as a lookup characterization); and
whenever at least one shared state exists the exponentials of the
returned values sum to exactly 1 (third conjunct). -/
theorem dist_posterior_spec (h : HMM ℝ) (obs : List ℕ) (t : ℕ)
    (hnd : h.States.Nodup) (ht : t < obs.length) :
    ((NewForwardBackward h obs).Dist t).map Prod.fst =
      (((NewForwardBackward h obs).ForwardOut.getD t []).map Prod.fst).filter
        (fun s => (((NewForwardBackward h obs).BackwardOut.getD
          (obs.length - 1 - t) []).lookup s).isSome) ∧
    (∀ s : ℕ, ((NewForwardBackward h obs).Dist t).lookup s =
      (((NewForwardBackward h obs).ForwardOut.getD t []).lookup s).bind
        (fun a => (((NewForwardBackward h obs).BackwardOut.getD
            (obs.length - 1 - t) []).lookup s).map
          (fun b => subV (a + b)
            (distTotal ((NewForwardBackward h obs).ForwardOut.getD t [])
              ((NewForwardBackward h obs).BackwardOut.getD
                (obs.length - 1 - t) []))))) ∧
    ((NewForwardBackward h obs).Dist t ≠ [] →
      (((NewForwardBackward h obs).Dist t).map
        (fun sv => expW sv.2)).sum = 1) := by
  have hFO : (NewForwardBackward h obs).ForwardOut =
      forwardOuts (newHMMCache h) h obs (newFastStateMapFrom h h.Init) := rfl
  have hBO : (NewForwardBackward h obs).BackwardOut =
      backwardOuts (newHMMCache h) h obs.reverse
        (initialBackwardDist (newHMMCache h) h) := rfl
  have hBlen : (NewForwardBackward h obs).BackwardOut.length = obs.length := by
    rw [hBO, backwardOuts_length, List.length_reverse]
  have hidx : (NewForwardBackward h obs).BackwardOut.length - (t + 1) =
      obs.length - 1 - t := by
    rw [hBlen]
    omega
  have hfwd_mem : (NewForwardBackward h obs).ForwardOut.getD t [] ∈
      forwardOuts (newHMMCache h) h obs (newFastStateMapFrom h h.Init) := by
    rw [hFO]
    rw [List.getD_eq_getElem _ _ (by rw [forwardOuts_length]; exact ht)]
    exact List.getElem_mem _
  obtain ⟨hfnd, hfnb⟩ := forwardOuts_mem (newHMMCache h) h hnd obs
    (newFastStateMapFrom h h.Init) (lensFSM_from h h.Init).2
    ((NewForwardBackward h obs).ForwardOut.getD t []) hfwd_mem
  have hbwd_mem : (NewForwardBackward h obs).BackwardOut.getD
      (obs.length - 1 - t) [] ∈
      backwardOuts (newHMMCache h) h obs.reverse
        (initialBackwardDist (newHMMCache h) h) := by
    rw [hBO]
    rw [List.getD_eq_getElem _ _
      (by rw [backwardOuts_length, List.length_reverse]; omega)]
    exact List.getElem_mem _
  have hbnb := backwardOuts_values_ne_bot (newHMMCache h) h obs.reverse
    (initialBackwardDist (newHMMCache h) h)
    (noBotFSM_initialBackwardDist (newHMMCache h) h).1
    (noBotFSM_initialBackwardDist (newHMMCache h) h).2
    ((NewForwardBackward h obs).BackwardOut.getD (obs.length - 1 - t) [])
    hbwd_mem
  refine ⟨?_, ?_, ?_⟩
  · rw [Dist_eq, hidx, map_fst_map_pairs, sharedPairs_keys]
  · intro s
    rw [Dist_eq, hidx]
    exact dist_lookup_gen _ _ hfnd s
  · intro hne
    rw [Dist_eq, hidx] at hne ⊢
    refine dist_sum_one ?_ (sharedPairs_values_ne_bot hfnb hbnb)
    intro hnil
    rw [hnil] at hne
    exact hne rfl

/-- Concrete one-state model for the posterior-distribution witness. -/
def c2HMM : HMM ℝ :=
  ⟨[0], none, .fn (fun _ _ => ((0 : ℝ) : Vr)), [(0, ((0 : ℝ) : Vr))], []⟩

/-- Witness for the posterior-distribution theorem at a concrete model
and time step. -/
theorem dist_posterior_spec_witness :
    c2HMM.States.Nodup ∧ 0 < ([5] : List ℕ).length ∧
    (((NewForwardBackward c2HMM [5]).Dist 0).map Prod.fst =
      (((NewForwardBackward c2HMM [5]).ForwardOut.getD 0 []).map
          Prod.fst).filter
        (fun s => (((NewForwardBackward c2HMM [5]).BackwardOut.getD
          (([5] : List ℕ).length - 1 - 0) []).lookup s).isSome) ∧
    (∀ s : ℕ, ((NewForwardBackward c2HMM [5]).Dist 0).lookup s =
      (((NewForwardBackward c2HMM [5]).ForwardOut.getD 0 []).lookup s).bind
        (fun a => (((NewForwardBackward c2HMM [5]).BackwardOut.getD
            (([5] : List ℕ).length - 1 - 0) []).lookup s).map
          (fun b => subV (a + b)
            (distTotal ((NewForwardBackward c2HMM [5]).ForwardOut.getD 0 [])
              ((NewForwardBackward c2HMM [5]).BackwardOut.getD
                (([5] : List ℕ).length - 1 - 0) []))))) ∧
    ((NewForwardBackward c2HMM [5]).Dist 0 ≠ [] →
      (((NewForwardBackward c2HMM [5]).Dist 0).map
        (fun sv => expW sv.2)).sum = 1)) :=
  ⟨by decide, by decide, dist_posterior_spec c2HMM [5] 0 (by decide) (by decide)⟩

section BaumWelchDefs

/-- `fastStateMap.Iter` as a fold: visit present entries in index order,
threading an accumulator (the Go code mutates shared tallies under a
lock; sequential iteration order is the collapse of that loop). -/
def fastStateMap.IterFold {σ : Type} (f : fastStateMap) (init : σ)
    (g : σ → ℕ → Vr → σ) : σ :=
  (List.range f.present.length).foldl (fun acc i =>
    if f.present.getD i false then
      g acc i (f.values.getD i ((0 : ℝ) : Vr))
    else acc) init

/-- The `baumWelch` accumulator struct (the `sync.Mutex` is dropped: the
embedding is sequential). -/
structure baumWelch where
  HMM : HMM ℝ
  TerminalIndex : ℕ
  InitTally : fastStateMap
  InitTotal : Vr
  TransTally : List fastStateMap
  FromStateTotals : fastStateMap
  EmitTally : List (List (ℕ × Vr))
  EmitTotals : fastStateMap

/-- `newBaumWelch`: fresh tallies, `InitTotal = −∞`, and `TerminalIndex`
set by the last state equal to the terminal state (0 when there is none,
the loop's zero value). -/
def newBaumWelch (h : HMM ℝ) : baumWelch :=
  ⟨h,
    (match h.TerminalState with
      | none => 0
      | some ts => s2i h.States ts),
    newFastStateMap h, ⊥,
    h.States.map (fun _ => newFastStateMap h), newFastStateMap h,
    h.States.map (fun _ => []), newFastStateMap h⟩

/-- A Go map write `emissions[obs] = ...` folding in a new log value:
replace the value under an existing key, append a new key otherwise. -/
noncomputable def emitAdd (l : List (ℕ × Vr)) (o : ℕ) (p : Vr) :
    List (ℕ × Vr) :=
  match l.lookup o with
  | some old => l.map (fun e => if e.1 = o then (e.1, addLogs old p) else e)
  | none => l ++ [(o, p)]

/-- The per-time smoothed distributions `dists` materialized in
`Accumulate`. -/
noncomputable def distsOf (b : baumWelch) (sample : List ℕ) :
    List fastStateMap :=
  (List.range sample.length).map (fun t =>
    newFastStateMapFrom b.HMM ((NewForwardBackward b.HMM sample).Dist t))

/-- The conditional distributions `condDists` materialized in
`Accumulate`: `t` runs from 1 up to the sample length, stopping one short
when there is no terminal state (for those `t` the bounds check in
`fastCondDist` passes, so it equals its implementation body). -/
noncomputable def condsOf (b : baumWelch) (sample : List ℕ) :
    List (List (Option fastStateMap)) :=
  (List.range' 1 (if b.HMM.TerminalState.isSome then sample.length
    else sample.length - 1)).map
    (fun t => (NewForwardBackward b.HMM sample).fastCondDistImpl t)

/-- The `InitTotal`/`InitTally` update of `Accumulate` for a non-empty
sample. -/
noncomputable def accInit (b : baumWelch) (dists : List fastStateMap) :
    baumWelch :=
  { b with
    InitTotal := addLogs b.InitTotal ((0 : ℝ) : Vr),
    InitTally := (dists.getD 0 (newFastStateMap b.HMM)).IterFold b.InitTally
      (fun acc state val => acc.AddLog state val) }

/-- One iteration of the transition-tally loop of `Accumulate`: a nil
conditional-distribution slot iterates zero times (a `nil` Go receiver has
an empty `present` slice). -/
noncomputable def accTransStep (dists : List fastStateMap)
    (condDists : List (List (Option fastStateMap))) (bb : baumWelch)
    (i : ℕ) : baumWelch :=
  (dists.getD i (newFastStateMap bb.HMM)).IterFold bb
    (fun bb1 src prevProb =>
      let bb2 := { bb1 with
        FromStateTotals := bb1.FromStateTotals.AddLog src prevProb }
      match (condDists.getD i []).getD src none with
      | none => bb2
      | some fd =>
        fd.IterFold bb2 (fun bb3 dst condProb =>
          { bb3 with TransTally := (bb3.TransTally.set src
              ((bb3.TransTally.getD src (newFastStateMap bb3.HMM)).AddLog dst
                (condProb + prevProb))) }))

/-- One iteration of the emission-tally loop of `Accumulate` (`e` is the
`(t, obs)` pair of the enumerated sample). -/
noncomputable def accEmitStep (dists : List fastStateMap) (bb : baumWelch)
    (e : ℕ × ℕ) : baumWelch :=
  (dists.getD e.1 (newFastStateMap bb.HMM)).IterFold bb
    (fun bb1 state prob =>
      { bb1 with
        EmitTotals := bb1.EmitTotals.AddLog state prob,
        EmitTally := bb1.EmitTally.set state
          (emitAdd (bb1.EmitTally.getD state []) e.2 prob) })

/-- `baumWelch.Accumulate`: the empty-sample branch tallies the terminal
state directly; a non-empty sample runs forward-backward and folds the
three tally loops in program order. -/
noncomputable def baumWelch.Accumulate (b : baumWelch) (sample : List ℕ) :
    baumWelch :=
  match sample with
  | [] =>
    match b.HMM.TerminalState with
    | none => b
    | some _ =>
      { b with
        InitTotal := addLogs b.InitTotal ((0 : ℝ) : Vr),
        InitTally := b.InitTally.AddLog b.TerminalIndex ((0 : ℝ) : Vr) }
  | _ :: _ =>
    sample.enum.foldl (accEmitStep (distsOf b sample))
      ((List.range (condsOf b sample).length).foldl
        (accTransStep (distsOf b sample) (condsOf b sample))
        (accInit b (distsOf b sample)))

/-- `baumWelch.Normalize`: subtract the running totals from the
transition, initial and emission tallies. -/
noncomputable def baumWelch.Normalize (b : baumWelch) : baumWelch :=
  let b1 := { b with TransTally := (b.FromStateTotals.IterFold b.TransTally
    (fun tt src total => tt.set src
      ((tt.getD src (newFastStateMap b.HMM)).AddAll (negV total)))) }
  let b2 := { b1 with InitTally := b1.InitTally.AddAll (negV b1.InitTotal) }
  { b2 with EmitTally := (b2.EmitTotals.IterFold b2.EmitTally
    (fun et state total => et.set state
      ((et.getD state []).map (fun e => (e.1, subV e.2 total))))) }

/-- `baumWelch.Result`: copy the model struct, then overwrite `Init`, the
emitter (always rebuilt as a tabular emitter keyed by the state list) and
`Transitions` (rebuilt from the transition tallies in index order). -/
noncomputable def baumWelch.Result (b : baumWelch) : HmmVerify.HMM ℝ :=
  { States := b.HMM.States
    TerminalState := b.HMM.TerminalState
    Emitter := .tabular (b.EmitTally.enum.map (fun e =>
      (b.HMM.States.getD e.1 0, e.2)))
    Init := b.InitTally.Map b.HMM
    Transitions := b.TransTally.enum.foldl (fun acc e =>
      let fromState := b.HMM.States.getD e.1 0
      e.2.IterFold acc (fun acc2 dst prob =>
        acc2 ++ [((fromState, b.HMM.States.getD dst 0), prob)])) [] }

/-- `BaumWelch`: the worker pool draining the `data` channel is collapsed
to a sequential fold over the materialized sample list, then normalize
and build the result model. -/
noncomputable def BaumWelch (h : HMM ℝ) (data : List (List ℕ)) : HMM ℝ :=
  ((data.foldl (fun bb sample => bb.Accumulate sample)
    (newBaumWelch h)).Normalize).Result

end BaumWelchDefs

section BaumWelchLemmas

theorem foldl_hmm_invariant {α : Type} (g : baumWelch → α → baumWelch)
    (hg : ∀ bb a, (g bb a).HMM = bb.HMM) :
    ∀ (l : List α) (init : baumWelch), (l.foldl g init).HMM = init.HMM := by
  intro l
  induction l with
  | nil =>
    intro init
    rfl
  | cons a l ih =>
    intro init
    rw [List.foldl_cons, ih, hg]

theorem IterFold_hmm (f : fastStateMap) (init : baumWelch)
    (g : baumWelch → ℕ → Vr → baumWelch)
    (hg : ∀ bb i v, (g bb i v).HMM = bb.HMM) :
    (f.IterFold init g).HMM = init.HMM := by
  rw [fastStateMap.IterFold]
  apply foldl_hmm_invariant
  intro bb i
  by_cases hp : f.present.getD i false
  · rw [if_pos hp, hg]
  · rw [if_neg hp]

theorem accTransStep_hmm (d : List fastStateMap)
    (c : List (List (Option fastStateMap))) (bb : baumWelch) (i : ℕ) :
    (accTransStep d c bb i).HMM = bb.HMM := by
  rw [accTransStep]
  apply IterFold_hmm
  intro bb1 src prevProb
  dsimp only
  cases (c.getD i []).getD src none with
  | none => rfl
  | some fd => exact IterFold_hmm fd _ _ (fun _ _ _ => rfl)

theorem accEmitStep_hmm (d : List fastStateMap) (bb : baumWelch)
    (e : ℕ × ℕ) : (accEmitStep d bb e).HMM = bb.HMM := by
  rw [accEmitStep]
  exact IterFold_hmm _ _ _ (fun _ _ _ => rfl)

theorem Accumulate_hmm (b : baumWelch) (sample : List ℕ) :
    (b.Accumulate sample).HMM = b.HMM := by
  cases sample with
  | nil =>
    have e0 : b.Accumulate [] =
        (match b.HMM.TerminalState with
          | none => b
          | some _ =>
            { b with
              InitTotal := addLogs b.InitTotal ((0 : ℝ) : Vr),
              InitTally :=
                b.InitTally.AddLog b.TerminalIndex ((0 : ℝ) : Vr) }) := rfl
    cases hts : b.HMM.TerminalState with
    | none => rw [e0, hts]
    | some ts => rw [e0, hts]
  | cons o os =>
    have e1 : b.Accumulate (o :: os) =
        (o :: os).enum.foldl (accEmitStep (distsOf b (o :: os)))
          ((List.range (condsOf b (o :: os)).length).foldl
            (accTransStep (distsOf b (o :: os)) (condsOf b (o :: os)))
            (accInit b (distsOf b (o :: os)))) := rfl
    rw [e1, foldl_hmm_invariant _ (accEmitStep_hmm _),
      foldl_hmm_invariant _ (accTransStep_hmm _ _)]
    rfl

theorem Normalize_hmm (b : baumWelch) : (b.Normalize).HMM = b.HMM := rfl

theorem bwFold_hmm (h : HMM ℝ) (data : List (List ℕ)) :
    (data.foldl (fun bb sample => bb.Accumulate sample)
      (newBaumWelch h)).HMM = h := by
  rw [foldl_hmm_invariant _ (fun bb s => Accumulate_hmm bb s)]
  rfl

end BaumWelchLemmas

/-- C7: `BaumWelch` returns a new model whose `States` and `TerminalState`
are exactly those of the input model, whose `Init` and `Transitions` are
freshly built from the normalized accumulator's tallies over the input
state list, and whose emitter is always a tabular emitter rebuilt from the
emission tallies, regardless of the input emitter. (The "input left
unchanged" part of the claim is mutation-freedom, which the pure embedding
models by construction: the input model value is untouched.) -/
theorem baumWelch_frame (h : HMM ℝ) (data : List (List ℕ)) :
    (BaumWelch h data).States = h.States ∧
    (BaumWelch h data).TerminalState = h.TerminalState ∧
    (BaumWelch h data).Emitter = .tabular
      (((data.foldl (fun bb sample => bb.Accumulate sample)
          (newBaumWelch h)).Normalize).EmitTally.enum.map (fun e =>
        (h.States.getD e.1 0, e.2))) ∧
    (BaumWelch h data).Init =
      (((data.foldl (fun bb sample => bb.Accumulate sample)
        (newBaumWelch h)).Normalize).InitTally).Map h ∧
    (BaumWelch h data).Transitions =
      ((data.foldl (fun bb sample => bb.Accumulate sample)
          (newBaumWelch h)).Normalize).TransTally.enum.foldl (fun acc e =>
        let fromState := h.States.getD e.1 0
        e.2.IterFold acc (fun acc2 dst prob =>
          acc2 ++ [((fromState, h.States.getD dst 0), prob)])) [] := by
  have hH : ((data.foldl (fun bb sample => bb.Accumulate sample)
      (newBaumWelch h)).Normalize).HMM = h := by
    rw [Normalize_hmm, bwFold_hmm]
  refine ⟨?_, ?_, ?_, ?_, ?_⟩
  · have e2 : (BaumWelch h data).States =
        ((data.foldl (fun bb sample => bb.Accumulate sample)
          (newBaumWelch h)).Normalize).HMM.States := rfl
    rw [e2, hH]
  · have e2 : (BaumWelch h data).TerminalState =
        ((data.foldl (fun bb sample => bb.Accumulate sample)
          (newBaumWelch h)).Normalize).HMM.TerminalState := rfl
    rw [e2, hH]
  · have e2 : (BaumWelch h data).Emitter = .tabular
        (((data.foldl (fun bb sample => bb.Accumulate sample)
            (newBaumWelch h)).Normalize).EmitTally.enum.map (fun e =>
          (((data.foldl (fun bb sample => bb.Accumulate sample)
            (newBaumWelch h)).Normalize).HMM.States.getD e.1 0, e.2))) := rfl
    rw [e2, hH]
  · have e2 : (BaumWelch h data).Init =
        (((data.foldl (fun bb sample => bb.Accumulate sample)
          (newBaumWelch h)).Normalize).InitTally).Map
          ((data.foldl (fun bb sample => bb.Accumulate sample)
            (newBaumWelch h)).Normalize).HMM := rfl
    rw [e2, hH]
  · have e2 : (BaumWelch h data).Transitions =
        ((data.foldl (fun bb sample => bb.Accumulate sample)
            (newBaumWelch h)).Normalize).TransTally.enum.foldl (fun acc e =>
          let fromState := ((data.foldl (fun bb sample => bb.Accumulate sample)
            (newBaumWelch h)).Normalize).HMM.States.getD e.1 0
          e.2.IterFold acc (fun acc2 dst prob =>
            acc2 ++ [((fromState, ((data.foldl
              (fun bb sample => bb.Accumulate sample)
              (newBaumWelch h)).Normalize).HMM.States.getD dst 0),
              prob)])) [] := rfl
    rw [e2, hH]

end HmmVerify
